import Mathlib

/-!
Shallow embedding of `scripts/prepare-corpus/prepare_prose.py` (the prose
corpus preparation pipeline of the speedreader repository), together with
proofs and refutations of the specification claims about it.

Text is modelled as `List Char` (one entry per Python character).  Python's
regular-expression scans over ASCII text are implemented character by
character; Python float arithmetic on derived scores is modelled exactly by
`ℚ` where the source only performs field operations on rationals, and by `ℝ`
where `statistics.stdev` takes a square root.
-/

namespace PrepareProse

/-! ### Character classes -/

/-- Characters matched by `_WORD_RE = re.compile(r"[A-Za-z']+")`:
ASCII letters and the apostrophe. -/
def isWordChar (c : Char) : Bool :=
  c.isAlpha || c == '\''

/-- Python `\s` / `str.split()` / `str.strip()` whitespace (ASCII range:
space, tab, newline, carriage return, vertical tab, form feed). -/
def isPySpace (c : Char) : Bool :=
  c == ' ' || c == '\t' || c == '\n' || c == '\r' || c == '\x0b' || c == '\x0c'

/-- Characters matched by `[.!?]` (sentence-terminal punctuation). -/
def isSentChar (c : Char) : Bool :=
  c == '.' || c == '!' || c == '?'

theorem pySpace_not_word {c : Char} (h : isPySpace c = true) : isWordChar c = false := by
  simp only [isPySpace, Bool.or_eq_true, beq_iff_eq] at h
  rcases h with ((((h | h) | h) | h) | h) | h <;> subst h <;> rfl

/-! ### Maximal-run scanning (`re.findall` for a character class) -/

/-- Run extractor: `acc` holds the (reversed) current run of `p`-characters.
On a non-`p` character a non-empty current run is emitted. -/
def runsAux (p : Char → Bool) : List Char → List Char → List (List Char)
  | acc, [] => if acc = [] then [] else [acc.reverse]
  | acc, c :: rest =>
    if p c then runsAux p (c :: acc) rest
    else if acc = [] then runsAux p [] rest
    else acc.reverse :: runsAux p [] rest

/-- `runsOf p cs` is the list of maximal runs of characters satisfying `p`,
in order: the matches of `re.findall` for the character class `p`. -/
def runsOf (p : Char → Bool) (cs : List Char) : List (List Char) :=
  runsAux p [] cs

/-- Run-counting automaton: counts the runs of `p`-characters in one pass,
`prev` recording whether the previous character satisfied `p`. -/
def cwFrom (p : Char → Bool) : Bool → List Char → Nat
  | _, [] => 0
  | prev, c :: rest => (if p c && !prev then 1 else 0) + cwFrom p (p c) rest

/-- State of the automaton after reading `l` starting from `prev`. -/
def endW (p : Char → Bool) (prev : Bool) (l : List Char) : Bool :=
  l.foldl (fun _ c => p c) prev

/-- The word tokens of a text: `_WORD_RE.findall(text)`. -/
def wordTokens (cs : List Char) : List (List Char) :=
  runsOf isWordChar cs

/-- `count_words` from the source: `len(_WORD_RE.findall(text))`. -/
def count_words (cs : List Char) : Nat :=
  (wordTokens cs).length

theorem length_runsAux_eq_cwFrom (p : Char → Bool) :
    ∀ (cs acc : List Char),
      (runsAux p acc cs).length =
        (if acc = [] then 0 else 1) + cwFrom p (!acc.isEmpty) cs := by
  intro cs
  induction cs with
  | nil =>
    intro acc
    by_cases h : acc = [] <;> simp [runsAux, cwFrom, h]
  | cons c rest ih =>
    intro acc
    by_cases hc : p c = true
    · rw [runsAux, if_pos hc, ih (c :: acc)]
      by_cases h : acc = [] <;> simp [cwFrom, hc, h]
    · rw [Bool.not_eq_true] at hc
      by_cases h : acc = []
      · rw [runsAux, if_neg (by simp [hc]), if_pos h, ih []]
        simp [cwFrom, hc, h]
      · rw [runsAux, if_neg (by simp [hc]), if_neg h]
        simp only [List.length_cons, ih []]
        have : acc.isEmpty = false := by
          rcases acc with _ | _
          · exact absurd rfl h
          · rfl
        simp [cwFrom, hc, h, this]
        omega

theorem count_words_eq_cwFrom (cs : List Char) :
    count_words cs = cwFrom isWordChar false cs := by
  have := length_runsAux_eq_cwFrom isWordChar cs []
  simpa [count_words, wordTokens, runsOf] using this

theorem cwFrom_append (p : Char → Bool) (l₁ l₂ : List Char) :
    ∀ prev, cwFrom p prev (l₁ ++ l₂) = cwFrom p prev l₁ + cwFrom p (endW p prev l₁) l₂ := by
  induction l₁ with
  | nil => intro prev; simp [cwFrom, endW]
  | cons c rest ih =>
    intro prev
    show (if p c && !prev then 1 else 0) + cwFrom p (p c) (rest ++ l₂) =
      ((if p c && !prev then 1 else 0) + cwFrom p (p c) rest) +
        cwFrom p (endW p prev (c :: rest)) l₂
    have he : endW p prev (c :: rest) = endW p (p c) rest := rfl
    rw [he, ih (p c)]
    omega

theorem cwFrom_cons_not (p : Char → Bool) {c : Char} (h : p c = false) (prev : Bool)
    (l : List Char) : cwFrom p prev (c :: l) = cwFrom p false l := by
  simp [cwFrom, h]

theorem cwFrom_all_not (p : Char → Bool) :
    ∀ l : List Char, (∀ c ∈ l, p c = false) → ∀ prev, cwFrom p prev l = 0
  | [], _, _ => rfl
  | c :: rest, h, prev => by
    have hc : p c = false := h c (List.mem_cons_self c rest)
    have ih := cwFrom_all_not p rest (fun d hd => h d (List.mem_cons_of_mem c hd))
    simp [cwFrom, hc, ih]

theorem endW_all_not (p : Char → Bool) :
    ∀ l : List Char, (∀ c ∈ l, p c = false) → l ≠ [] → ∀ prev, endW p prev l = false
  | [], _, hne, _ => absurd rfl hne
  | c :: rest, h, _, prev => by
    have hc : p c = false := h c (List.mem_cons_self c rest)
    by_cases hr : rest = []
    · subst hr; simpa [endW] using hc
    · exact endW_all_not p rest (fun d hd => h d (List.mem_cons_of_mem c hd)) hr (p c)

/-- Counting words is additive across a non-word separator character. -/
theorem count_words_append_sep {c : Char} (h : isWordChar c = false) (l₁ l₂ : List Char) :
    count_words (l₁ ++ c :: l₂) = count_words l₁ + count_words l₂ := by
  simp only [count_words_eq_cwFrom, cwFrom_append, cwFrom_cons_not isWordChar h]

/-! ### `str.strip` -/

/-- Remove leading and trailing characters satisfying `p`
(Python `str.strip()` for the character class `p`). -/
def stripWith (p : Char → Bool) (cs : List Char) : List Char :=
  (cs.dropWhile p).rdropWhile p

/-- Python `str.strip()` (whitespace on both ends). -/
def stripChars (cs : List Char) : List Char :=
  stripWith isPySpace cs

theorem cwFrom_dropWhile_space (cs : List Char) :
    cwFrom isWordChar false (cs.dropWhile isPySpace) = cwFrom isWordChar false cs := by
  induction cs with
  | nil => rfl
  | cons c rest ih =>
    by_cases h : isPySpace c = true
    · rw [List.dropWhile_cons, if_pos h, ih, cwFrom_cons_not isWordChar (pySpace_not_word h)]
    · rw [List.dropWhile_cons, if_neg h]

theorem rdropWhile_append_rtakeWhile (p : Char → Bool) (cs : List Char) :
    cs.rdropWhile p ++ cs.rtakeWhile p = cs := by
  rw [List.rdropWhile, List.rtakeWhile, ← List.reverse_append,
    List.takeWhile_append_dropWhile, List.reverse_reverse]

theorem cwFrom_rdropWhile_space (cs : List Char) :
    cwFrom isWordChar false (cs.rdropWhile isPySpace) = cwFrom isWordChar false cs := by
  conv_rhs => rw [← rdropWhile_append_rtakeWhile isPySpace cs]
  rw [cwFrom_append]
  rw [cwFrom_all_not isWordChar _ (fun c hc => pySpace_not_word (List.mem_rtakeWhile_imp hc))]
  omega

theorem count_words_stripChars (cs : List Char) :
    count_words (stripChars cs) = count_words cs := by
  simp only [count_words_eq_cwFrom, stripChars, stripWith]
  rw [cwFrom_rdropWhile_space, cwFrom_dropWhile_space]

theorem stripWith_eq_nil_iff (p : Char → Bool) (cs : List Char) :
    stripWith p cs = [] ↔ ∀ c ∈ cs, p c = true := by
  rw [stripWith, List.rdropWhile_eq_nil_iff]
  constructor
  · intro h c hc
    rw [← List.takeWhile_append_dropWhile (p := p) (l := cs), List.mem_append] at hc
    rcases hc with hc | hc
    · exact List.mem_takeWhile_imp hc
    · exact h c hc
  · intro h c hc
    exact h c (List.dropWhile_subset p hc)

theorem stripChars_eq_nil_iff (cs : List Char) :
    stripChars cs = [] ↔ ∀ c ∈ cs, isPySpace c = true :=
  stripWith_eq_nil_iff isPySpace cs

theorem stripWith_head (p : Char → Bool) (cs : List Char) {c : Char}
    (h : (stripWith p cs).head? = some c) : p c = false := by
  obtain ⟨t, ht⟩ := List.rdropWhile_prefix p (cs.dropWhile p)
  have hh : (cs.dropWhile p).head? = some c := by
    rcases hsw : stripWith p cs with _ | ⟨d, r⟩
    · rw [hsw] at h; exact absurd h (by simp)
    · rw [hsw] at h
      have hsw' : (cs.dropWhile p).rdropWhile p = d :: r := hsw
      rw [← ht, hsw']
      simpa using h
  have h2 := List.head?_dropWhile_not p cs
  rw [hh] at h2
  exact h2

theorem stripWith_last (p : Char → Bool) (cs : List Char) {c : Char}
    (h : (stripWith p cs).getLast? = some c) : p c = false := by
  have hne : stripWith p cs ≠ [] := by
    intro hnil; rw [hnil] at h; exact absurd h (by simp)
  have hlast := List.rdropWhile_last_not p (cs.dropWhile p) hne
  have hc : c = (stripWith p cs).getLast hne := by
    rw [List.getLast?_eq_getLast _ hne] at h
    exact (Option.some_inj.mp h).symm
  subst hc
  simpa using hlast

/-- A list whose first and last characters do not satisfy `p` is unchanged
by `str.strip` for the class `p`. -/
theorem stripWith_eq_self (p : Char → Bool) {l : List Char}
    (h1 : ∀ c, l.head? = some c → p c = false)
    (h2 : ∀ c, l.getLast? = some c → p c = false) : stripWith p l = l := by
  have hd : l.dropWhile p = l := by
    rcases l with _ | ⟨c, rest⟩
    · rfl
    · rw [List.dropWhile_cons, if_neg (by simp [h1 c rfl])]
  rw [stripWith, hd]
  apply List.rdropWhile_eq_self_iff.mpr
  intro hl
  have := h2 (l.getLast hl) (List.getLast?_eq_getLast l hl)
  simp [this]

/-- `str.strip()` is idempotent. -/
theorem stripWith_idem (p : Char → Bool) (cs : List Char) :
    stripWith p (stripWith p cs) = stripWith p cs := by
  have hd : (stripWith p cs).dropWhile p = stripWith p cs := by
    rcases hsw : stripWith p cs with _ | ⟨d, r⟩
    · rfl
    · have hdp : p d = false := stripWith_head p cs (by rw [hsw]; rfl)
      rw [List.dropWhile_cons, if_neg (by simp [hdp])]
  rw [stripWith, hd, stripWith, List.rdropWhile_idempotent]

theorem stripChars_idem (cs : List Char) : stripChars (stripChars cs) = stripChars cs :=
  stripWith_idem isPySpace cs

@[simp] theorem runsOf_nil (p : Char → Bool) : runsOf p [] = [] := rfl

@[simp] theorem count_words_nil : count_words [] = 0 := by
  simp [count_words, wordTokens]

/-! ### `str.join` -/

/-- Python `sep.join(xs)`. -/
def joinSep (sep : List Char) : List (List Char) → List Char
  | [] => []
  | [x] => x
  | x :: xs => x ++ sep ++ joinSep sep xs

theorem cwFrom_append_sep {sep : List Char} (hne : sep ≠ [])
    (hsp : ∀ c ∈ sep, isWordChar c = false) (l₁ l₂ : List Char) :
    cwFrom isWordChar false (l₁ ++ sep ++ l₂) =
      cwFrom isWordChar false l₁ + cwFrom isWordChar false l₂ := by
  rw [List.append_assoc, cwFrom_append, cwFrom_append,
    cwFrom_all_not isWordChar sep hsp, endW_all_not isWordChar sep hsp hne]
  omega

/-- Word counting distributes over `sep.join` for a non-word separator. -/
theorem count_words_joinSep {sep : List Char} (hne : sep ≠ [])
    (hsp : ∀ c ∈ sep, isWordChar c = false) :
    ∀ xs : List (List Char), count_words (joinSep sep xs) = (xs.map count_words).sum
  | [] => by simp [joinSep]
  | [x] => by simp [joinSep]
  | x :: y :: xs => by
    have ih := count_words_joinSep hne hsp (y :: xs)
    show count_words (x ++ sep ++ joinSep sep (y :: xs)) = _
    rw [count_words_eq_cwFrom, cwFrom_append_sep hne hsp, ← count_words_eq_cwFrom,
      ← count_words_eq_cwFrom, ih]
    simp

/-! ### Sentence splitting (`_SENT_SPLIT_RE = r"(?<=[.!?])\s+"`) -/

/-- Split at every maximal whitespace run immediately preceded by `.`, `!`
or `?` (`re.split` keeps empty pieces).  `acc` holds the current piece
reversed, `prev` the previously scanned character and `inSep` whether the
scan is inside the whitespace run of a separator match. -/
def sentSplitGo : List Char → Option Char → Bool → List Char → List (List Char)
  | acc, _, _, [] => [acc.reverse]
  | acc, prev, inSep, c :: rest =>
    if inSep then
      if isPySpace c then sentSplitGo acc prev true rest
      else sentSplitGo (c :: acc) (some c) false rest
    else if isPySpace c && (prev == some '.' || prev == some '!' || prev == some '?') then
      acc.reverse :: sentSplitGo [] prev true rest
    else
      sentSplitGo (c :: acc) (some c) false rest

/-- `_SENT_SPLIT_RE.split(paragraph)`. -/
def sentSplit (cs : List Char) : List (List Char) :=
  sentSplitGo [] none false cs

/-- The sentence list computed at the top of `split_oversized_paragraph`:
`[s.strip() for s in _SENT_SPLIT_RE.split(paragraph) if s.strip()]`. -/
def sentencesOf (paragraph : List Char) : List (List Char) :=
  ((sentSplit paragraph).map stripChars).filter (fun s => !s.isEmpty)

theorem count_words_dropWhile_space (cs : List Char) :
    count_words (cs.dropWhile isPySpace) = count_words cs := by
  simp only [count_words_eq_cwFrom]
  exact cwFrom_dropWhile_space cs

theorem sum_count_sentSplitGo :
    ∀ (l acc : List Char) (prev : Option Char) (inSep : Bool),
      (inSep = true → acc = []) →
      ((sentSplitGo acc prev inSep l).map count_words).sum = count_words (acc.reverse ++ l) := by
  intro l
  induction l with
  | nil =>
    intro acc prev inSep _
    simp [sentSplitGo]
  | cons c rest ih =>
    intro acc prev inSep hinv
    by_cases hs : inSep = true
    · have hacc : acc = [] := hinv hs
      subst hacc
      subst hs
      by_cases hc : isPySpace c = true
      · rw [sentSplitGo, if_pos rfl, if_pos hc, ih [] prev true (fun _ => rfl)]
        simp only [List.reverse_nil, List.nil_append]
        rw [count_words_eq_cwFrom, count_words_eq_cwFrom,
          cwFrom_cons_not isWordChar (pySpace_not_word hc)]
      · rw [sentSplitGo, if_pos rfl, if_neg hc, ih [c] (some c) false (by simp)]
        simp
    · rw [Bool.not_eq_true] at hs
      subst hs
      by_cases hcond :
          (isPySpace c && (prev == some '.' || prev == some '!' || prev == some '?')) = true
      · rw [sentSplitGo, if_neg (by simp), if_pos hcond]
        have hsp : isPySpace c = true := by
          simp only [Bool.and_eq_true] at hcond
          exact hcond.1
        simp only [List.map_cons, List.sum_cons, ih [] prev true (fun _ => rfl),
          List.reverse_nil, List.nil_append]
        rw [count_words_append_sep (pySpace_not_word hsp)]
      · rw [sentSplitGo, if_neg (by simp), if_neg hcond, ih (c :: acc) (some c) false (by simp)]
        simp [List.append_assoc]

/-- The pieces of the sentence split carry exactly the words of the input. -/
theorem sum_count_sentSplit (p : List Char) :
    ((sentSplit p).map count_words).sum = count_words p := by
  simpa using sum_count_sentSplitGo p [] none false (by simp)

theorem sum_map_filter_eq {α : Type} (f : α → Nat) (q : α → Bool) :
    ∀ l : List α, (∀ x ∈ l, q x = false → f x = 0) →
      ((l.filter q).map f).sum = (l.map f).sum := by
  intro l
  induction l with
  | nil => intro _; rfl
  | cons x rest ih =>
    intro h
    by_cases hq : q x = true
    · rw [List.filter_cons_of_pos hq]
      simp only [List.map_cons, List.sum_cons]
      rw [ih (fun y hy => h y (List.mem_cons_of_mem x hy))]
    · rw [List.filter_cons_of_neg (by simpa using hq)]
      simp only [List.map_cons, List.sum_cons]
      rw [ih (fun y hy => h y (List.mem_cons_of_mem x hy)),
        h x (List.mem_cons_self x rest) (by simpa using hq)]
      omega

/-- The retained, stripped sentences carry exactly the words of the paragraph. -/
theorem sum_count_sentencesOf (p : List Char) :
    ((sentencesOf p).map count_words).sum = count_words p := by
  rw [sentencesOf, sum_map_filter_eq]
  · rw [List.map_map]
    have : count_words ∘ stripChars = count_words := by
      funext s; exact count_words_stripChars s
    rw [this, sum_count_sentSplit]
  · intro x _ hx
    have : x.isEmpty = true := by
      rcases hi : x.isEmpty with _ | _
      · rw [hi] at hx; simp at hx
      · rfl
    rw [List.isEmpty_iff] at this
    simp [this]

theorem sentencesOf_mem {p s : List Char} (hs : s ∈ sentencesOf p) :
    stripChars s = s ∧ s ≠ [] := by
  rw [sentencesOf, List.mem_filter] at hs
  obtain ⟨hmem, hne⟩ := hs
  obtain ⟨x, _, rfl⟩ := List.mem_map.mp hmem
  refine ⟨stripChars_idem x, ?_⟩
  intro hnil
  rw [hnil] at hne
  simp at hne

/-! ### `split_oversized_paragraph` -/

/-- The greedy chunk-filling loop inside `split_oversized_paragraph`.  The
Python loop first either flushes (when the current chunk is non-empty and
adding the sentence would pass `max_words`) or appends the sentence, and
then closes the current chunk once it has reached `target_words`; the four
branches below inline that two-stage update. -/
def sopGo (target maxW : Nat) :
    List (List Char) → List (List Char) → Nat → List (List (List Char)) →
      List (List (List Char))
  | [], current, _, chunks => if current = [] then chunks else chunks ++ [current]
  | s :: rest, current, cw, chunks =>
    if current ≠ [] ∧ maxW < cw + count_words s then
      if target ≤ count_words s then
        sopGo target maxW rest [] 0 ((chunks ++ [current]) ++ [[s]])
      else
        sopGo target maxW rest [s] (count_words s) (chunks ++ [current])
    else
      if target ≤ cw + count_words s then
        sopGo target maxW rest [] 0 (chunks ++ [current ++ [s]])
      else
        sopGo target maxW rest (current ++ [s]) (cw + count_words s) chunks

/-- `split_oversized_paragraph(paragraph, target_words=target, max_words=maxW)`:
if the sentence list is empty the paragraph is returned whole, otherwise the
non-empty chunks are joined with single spaces and stripped. -/
def split_oversized_paragraph (target maxW : Nat) (paragraph : List Char) :
    List (List Char) :=
  if (sentencesOf paragraph).isEmpty then [paragraph]
  else
    ((sopGo target maxW (sentencesOf paragraph) [] 0 []).filter (fun ch => !ch.isEmpty)).map
      (fun ch => stripChars (joinSep [' '] ch))

theorem sopGo_flatten (target maxW : Nat) :
    ∀ (sents : List (List Char)) (current : List (List Char)) (cw : Nat)
      (chunks : List (List (List Char))),
      (sopGo target maxW sents current cw chunks).flatten =
        chunks.flatten ++ current ++ sents := by
  intro sents
  induction sents with
  | nil =>
    intro current cw chunks
    rw [sopGo]
    by_cases h : current = []
    · rw [if_pos h, h]; simp
    · rw [if_neg h]; simp
  | cons s rest ih =>
    intro current cw chunks
    rw [sopGo]
    split_ifs with h1 h2 h3 <;> rw [ih] <;> simp [List.append_assoc]

theorem sopGo_le (target maxW : Nat) :
    ∀ (sents : List (List Char)) (current : List (List Char)) (cw : Nat)
      (chunks : List (List (List Char))),
      (∀ s ∈ sents, count_words s ≤ maxW) →
      (∀ ch ∈ chunks, (ch.map count_words).sum ≤ maxW) →
      cw = (current.map count_words).sum →
      cw ≤ maxW →
      ∀ ch ∈ sopGo target maxW sents current cw chunks,
        (ch.map count_words).sum ≤ maxW := by
  intro sents
  induction sents with
  | nil =>
    intro current cw chunks _ hchunks hcw hle ch hch
    rw [sopGo] at hch
    by_cases h : current = []
    · rw [if_pos h] at hch; exact hchunks ch hch
    · rw [if_neg h] at hch
      rcases List.mem_append.mp hch with hch | hch
      · exact hchunks ch hch
      · rw [List.mem_singleton.mp hch, ← hcw]; exact hle
  | cons s rest ih =>
    intro current cw chunks hsents hchunks hcw hle ch hch
    have hs : count_words s ≤ maxW := hsents s (List.mem_cons_self s rest)
    have hrest : ∀ x ∈ rest, count_words x ≤ maxW :=
      fun x hx => hsents x (List.mem_cons_of_mem s hx)
    rw [sopGo] at hch
    split_ifs at hch with h1 h2 h3
    · refine ih [] 0 _ hrest ?_ (by simp) (Nat.zero_le _) ch hch
      intro ch' hch'
      rcases List.mem_append.mp hch' with hch' | hch'
      · rcases List.mem_append.mp hch' with hch' | hch'
        · exact hchunks ch' hch'
        · rw [List.mem_singleton.mp hch', ← hcw]; exact hle
      · rw [List.mem_singleton.mp hch']
        simpa using hs
    · refine ih [s] (count_words s) _ hrest ?_ (by simp) hs ch hch
      intro ch' hch'
      rcases List.mem_append.mp hch' with hch' | hch'
      · exact hchunks ch' hch'
      · rw [List.mem_singleton.mp hch', ← hcw]; exact hle
    · -- the sentence was appended and the chunk then closed at the target
      have hsum : cw + count_words s ≤ maxW := by
        rcases not_and_or.mp h1 with h | h
        · have hcur : current = [] := not_not.mp h
          subst hcur
          simp only [List.map_nil, List.sum_nil] at hcw
          omega
        · omega
      refine ih [] 0 _ hrest ?_ (by simp) (Nat.zero_le _) ch hch
      intro ch' hch'
      rcases List.mem_append.mp hch' with hch' | hch'
      · exact hchunks ch' hch'
      · rw [List.mem_singleton.mp hch']
        simp only [List.map_append, List.sum_append, List.map_cons, List.sum_cons,
          List.map_nil, List.sum_nil, ← hcw]
        omega
    · have hsum : cw + count_words s ≤ maxW := by
        rcases not_and_or.mp h1 with h | h
        · have hcur : current = [] := not_not.mp h
          subst hcur
          simp only [List.map_nil, List.sum_nil] at hcw
          omega
        · omega
      refine ih (current ++ [s]) (cw + count_words s) _ hrest hchunks ?_ hsum ch hch
      simp [← hcw]

theorem flatten_filter_nonEmpty {α : Type} :
    ∀ l : List (List α), (l.filter (fun x => !x.isEmpty)).flatten = l.flatten
  | [] => rfl
  | x :: rest => by
    by_cases h : x = []
    · subst h
      rw [List.filter_cons_of_neg (by simp)]
      simp [flatten_filter_nonEmpty rest]
    · rw [List.filter_cons_of_pos (by simpa using h)]
      simp [flatten_filter_nonEmpty rest]

theorem sum_count_flatten :
    ∀ l : List (List (List Char)),
      (l.flatten.map count_words).sum = (l.map (fun ch => (ch.map count_words).sum)).sum
  | [] => rfl
  | ch :: rest => by
    simp only [List.flatten_cons, List.map_append, List.sum_append, List.map_cons,
      List.sum_cons, sum_count_flatten rest]

/-- The chunks built by `split_oversized_paragraph` carry the retained
sentences exactly, in order. -/
theorem split_oversized_flatten (target maxW : Nat) (p : List Char) :
    (sopGo target maxW (sentencesOf p) [] 0 []).flatten = sentencesOf p := by
  simpa using sopGo_flatten target maxW (sentencesOf p) [] 0 []

theorem space_not_word : isWordChar ' ' = false := rfl

/-- The word count of one assembled piece is the summed word count of its
chunk. -/
theorem count_words_piece (ch : List (List Char)) :
    count_words (stripChars (joinSep [' '] ch)) = (ch.map count_words).sum := by
  rw [count_words_stripChars]
  exact count_words_joinSep (by simp) (fun c hc => by
    rw [List.mem_singleton.mp hc]; exact space_not_word) ch

/-- `split_oversized_paragraph` conserves the total word count. -/
theorem sum_count_split_oversized (target maxW : Nat) (p : List Char) :
    ((split_oversized_paragraph target maxW p).map count_words).sum = count_words p := by
  rw [split_oversized_paragraph]
  by_cases he : (sentencesOf p).isEmpty
  · rw [if_pos he]
    simp
  · rw [if_neg he]
    rw [List.map_map]
    have hcong : ((sopGo target maxW (sentencesOf p) [] 0 []).filter
        (fun ch => !ch.isEmpty)).map (count_words ∘ fun ch => stripChars (joinSep [' '] ch)) =
        ((sopGo target maxW (sentencesOf p) [] 0 []).filter (fun ch => !ch.isEmpty)).map
          (fun ch => (ch.map count_words).sum) :=
      List.map_congr_left (fun ch _ => count_words_piece ch)
    rw [hcong, ← sum_count_flatten, flatten_filter_nonEmpty, split_oversized_flatten,
      sum_count_sentencesOf]

theorem mem_chunk_mem_sentences {target maxW : Nat} {p : List Char}
    {ch : List (List Char)} {s : List Char}
    (hch : ch ∈ (sopGo target maxW (sentencesOf p) [] 0 []).filter (fun x => !x.isEmpty))
    (hs : s ∈ ch) : s ∈ sentencesOf p := by
  rw [← split_oversized_flatten target maxW p]
  exact List.mem_flatten.mpr ⟨ch, List.mem_of_mem_filter hch, hs⟩

theorem piece_ne_nil {ch : List (List Char)} (hne : ch ≠ [])
    (hgood : ∀ s ∈ ch, stripChars s = s ∧ s ≠ []) :
    stripChars (joinSep [' '] ch) ≠ [] := by
  rcases ch with _ | ⟨s1, rest⟩
  · exact absurd rfl hne
  intro hnil
  obtain ⟨hstrip1, hne1⟩ := hgood s1 (List.mem_cons_self s1 rest)
  rcases hc : s1 with _ | ⟨c0, s1t⟩
  · exact hne1 hc
  have hmem : c0 ∈ joinSep [' '] (s1 :: rest) := by
    rcases rest with _ | ⟨s2, rest'⟩
    · show c0 ∈ s1
      rw [hc]; exact List.mem_cons_self c0 s1t
    · show c0 ∈ s1 ++ [' '] ++ joinSep [' '] (s2 :: rest')
      refine List.mem_append.mpr (Or.inl (List.mem_append.mpr (Or.inl ?_)))
      rw [hc]; exact List.mem_cons_self c0 s1t
  have hspace : isPySpace c0 = true := (stripChars_eq_nil_iff _).mp hnil c0 hmem
  have : isPySpace c0 = false := by
    apply stripWith_head isPySpace s1
    show (stripChars s1).head? = some c0
    rw [hstrip1, hc]
    rfl
  rw [this] at hspace
  exact Bool.false_ne_true hspace

/-- Every piece of `split_oversized_paragraph` obeys the hard word cap,
provided no single sentence of the paragraph exceeds it. -/
theorem split_oversized_paragraph_le (target maxW : Nat) (p : List Char)
    (h : ∀ s ∈ sentencesOf p, count_words s ≤ maxW) :
    ∀ piece ∈ split_oversized_paragraph target maxW p, count_words piece ≤ maxW := by
  intro piece hpiece
  rw [split_oversized_paragraph] at hpiece
  by_cases he : (sentencesOf p).isEmpty
  · rw [if_pos he] at hpiece
    have hp : piece = p := List.mem_singleton.mp hpiece
    have hzero : count_words p = 0 := by
      rw [← sum_count_sentencesOf p, List.isEmpty_iff.mp he]
      rfl
    rw [hp, hzero]
    exact Nat.zero_le _
  · rw [if_neg he] at hpiece
    obtain ⟨ch, hch, rfl⟩ := List.mem_map.mp hpiece
    rw [count_words_piece]
    exact sopGo_le target maxW (sentencesOf p) [] 0 [] h (by simp) rfl (Nat.zero_le _)
      ch (List.mem_of_mem_filter hch)

/-- C10: for every non-empty paragraph, `split_oversized_paragraph` returns a
non-empty list of non-empty pieces; the chunks it assembles flatten back to
exactly the paragraph's retained sentences, once each and in their original
order, and the total word count of the returned pieces equals the word count
of the input paragraph. -/
theorem claim_C10 (target maxW : Nat) (p : List Char) (hp : p ≠ []) :
    split_oversized_paragraph target maxW p ≠ [] ∧
      (∀ q ∈ split_oversized_paragraph target maxW p, q ≠ []) ∧
      (sopGo target maxW (sentencesOf p) [] 0 []).flatten = sentencesOf p ∧
      ((split_oversized_paragraph target maxW p).map count_words).sum = count_words p := by
  refine ⟨?_, ?_, split_oversized_flatten target maxW p, sum_count_split_oversized target maxW p⟩
  · rw [split_oversized_paragraph]
    by_cases he : (sentencesOf p).isEmpty
    · rw [if_pos he]; simp
    · rw [if_neg he]
      intro hnil
      rw [List.map_eq_nil_iff] at hnil
      have : (sentencesOf p) = [] := by
        rw [← split_oversized_flatten target maxW p, ← flatten_filter_nonEmpty, hnil]
        rfl
      rw [this] at he
      exact he rfl
  · intro q hq
    rw [split_oversized_paragraph] at hq
    by_cases he : (sentencesOf p).isEmpty
    · rw [if_pos he] at hq
      rw [List.mem_singleton.mp hq]
      exact hp
    · rw [if_neg he] at hq
      obtain ⟨ch, hch, rfl⟩ := List.mem_map.mp hq
      apply piece_ne_nil
      · have := (List.mem_filter.mp hch).2
        intro hnil
        rw [hnil] at this
        simp at this
      · exact fun s hs => sentencesOf_mem (mem_chunk_mem_sentences hch hs)

theorem claim_C10_witness :
    ("Hi there. Bye.".data ≠ []) ∧
      (split_oversized_paragraph 1 2 ("Hi there. Bye.".data) ≠ [] ∧
        (∀ q ∈ split_oversized_paragraph 1 2 ("Hi there. Bye.".data), q ≠ []) ∧
        (sopGo 1 2 (sentencesOf ("Hi there. Bye.".data)) [] 0 []).flatten =
          sentencesOf ("Hi there. Bye.".data) ∧
        ((split_oversized_paragraph 1 2 ("Hi there. Bye.".data)).map count_words).sum =
          count_words ("Hi there. Bye.".data)) :=
  ⟨by decide, claim_C10 1 2 ("Hi there. Bye.".data) (by decide)⟩

/-! ### Structural-heading detection (`is_structural_heading_paragraph`) -/

/-- The character set stripped in the heading detectors:
`" \"'“”‘’()[]{}"` (space, straight and curly quotes, brackets, braces). -/
def isQuoteBracket (c : Char) : Bool :=
  c == ' ' || c == '"' || c == '\'' || c == '“' || c == '”' || c == '‘' || c == '’' ||
    c == '(' || c == ')' || c == '[' || c == ']' || c == '\x7b' || c == '\x7d'

/-- `_NUMERIC_HEADING_RE = r"^\d+[.)]?$"` (fullmatch). -/
def numericHeading (cs : List Char) : Bool :=
  !(cs.takeWhile Char.isDigit).isEmpty &&
    ((cs.dropWhile Char.isDigit).isEmpty || cs.dropWhile Char.isDigit == ['.'] ||
      cs.dropWhile Char.isDigit == [')'])

/-- A character of the class `[IVXLCDM]` with `re.IGNORECASE`. -/
def isRomanChar (c : Char) : Bool :=
  c.toLower == 'i' || c.toLower == 'v' || c.toLower == 'x' || c.toLower == 'l' ||
    c.toLower == 'c' || c.toLower == 'd' || c.toLower == 'm'

/-- `_ROMAN_HEADING_RE = r"^[IVXLCDM]+[.)]?$"`, case-insensitive (fullmatch). -/
def romanHeading (cs : List Char) : Bool :=
  !(cs.takeWhile isRomanChar).isEmpty &&
    ((cs.dropWhile isRomanChar).isEmpty || cs.dropWhile isRomanChar == ['.'] ||
      cs.dropWhile isRomanChar == [')'])

/-- A character of the class `[_*]`. -/
def isEmphChar (c : Char) : Bool :=
  c == '_' || c == '*'

/-- `_EMPHASIZED_HEADING_RE = r"^[_*][^_*]{2,120}[_*]$"` (fullmatch): an
emphasis marker, 2 to 120 non-marker characters, an emphasis marker. -/
def emphasizedHeading (cs : List Char) : Bool :=
  match cs with
  | [] => false
  | f :: rest =>
    match rest.reverse with
    | [] => false
    | l :: midRev =>
      isEmphChar f && isEmphChar l && decide (2 ≤ midRev.length) &&
        decide (midRev.length ≤ 120) && midRev.all (fun c => !isEmphChar c)

/-- A character of the class `[A-Za-z'’-]` (heading word characters, also the
tail class of `_TITLE_WORD_RE`). -/
def titleWordChar (c : Char) : Bool :=
  c.isAlpha || c == '\'' || c == '’' || c == '-'

/-- `_TITLE_WORD_RE = r"^[A-Z][A-Za-z'’-]*$"` (fullmatch). -/
def titleWord (w : List Char) : Bool :=
  match w with
  | [] => false
  | c :: rest => c.isUpper && rest.all titleWordChar

/-- A character of the class `[A-Z'’-]`. -/
def upperWordChar (c : Char) : Bool :=
  c.isUpper || c == '\'' || c == '’' || c == '-'

/-- `_UPPER_WORD_RE = r"^[A-Z][A-Z'’-]*$"` (fullmatch). -/
def upperWord (w : List Char) : Bool :=
  match w with
  | [] => false
  | c :: rest => c.isUpper && rest.all upperWordChar

/-- `is_structural_heading_paragraph` from the source. -/
def is_structural_heading_paragraph (paragraph : List Char) : Bool :=
  let p := stripChars paragraph
  if p = [] then false
  else
    let plain := stripWith isQuoteBracket p
    if numericHeading plain then true
    else if romanHeading plain then true
    else if emphasizedHeading p then true
    else if plain.any isSentChar then false
    else
      let words := runsOf titleWordChar plain
      if words = [] || decide (12 < words.length) then false
      else
        -- `title_like / len(words) >= 0.8`, compared exactly by
        -- cross-multiplication (`len(words) > 0` holds here).
        let title_like := (words.filter (fun w => titleWord w || upperWord w)).length
        decide (4 * words.length ≤ 5 * title_like)

/-! ### `chunk_section` -/

/-- The paragraph separator `"\n\n"`. -/
def nl2 : List Char := ['\n', '\n']

/-- `emit_current` from `chunk_section`: flush the accumulated paragraphs as
one `(section_title, text)` item, skipping empty accumulators and items whose
joined text strips to nothing. -/
def emitCurrent (sec : List Char) (items : List (List Char × List Char))
    (current : List (List Char)) : List (List Char × List Char) :=
  if current = [] then items
  else
    let text := stripChars (joinSep nl2 current)
    if text = [] then items else items ++ [(sec, text)]

/-- The main paragraph loop of `chunk_section`.  Structural-heading stubs
flush and are dropped; oversized paragraphs flush and are split; otherwise
the paragraph is appended (flushing first if it would overflow `maxW`), and
the accumulator is flushed once it reaches `target`. -/
def csGo (sec : List Char) (target maxW : Nat) :
    List (List Char) → List (List Char) → Nat → List (List Char × List Char) →
      List (List Char × List Char)
  | [], current, _, items => emitCurrent sec items current
  | p :: rest, current, cw, items =>
    if is_structural_heading_paragraph p then
      csGo sec target maxW rest [] 0 (emitCurrent sec items current)
    else if maxW < count_words p then
      csGo sec target maxW rest [] 0
        (emitCurrent sec items current ++
          (split_oversized_paragraph target maxW p).map (fun piece => (sec, piece)))
    else if current ≠ [] ∧ maxW < cw + count_words p then
      if target ≤ count_words p then
        csGo sec target maxW rest [] 0 (emitCurrent sec (emitCurrent sec items current) [p])
      else
        csGo sec target maxW rest [p] (count_words p) (emitCurrent sec items current)
    else
      if target ≤ cw + count_words p then
        csGo sec target maxW rest [] 0 (emitCurrent sec items (current ++ [p]))
      else
        csGo sec target maxW rest (current ++ [p]) (cw + count_words p) items

/-- The trailing merge pass of `chunk_section`: a unit below `minW` words is
appended (with a blank-line separator) to the previous unit when the merged
unit would stay within `maxW`. -/
def mergeGo (maxW minW : Nat) :
    List Char × List Char → List (List Char × List Char) → List (List Char × List Char)
  | last, [] => [last]
  | last, (sec, text) :: rest =>
    if count_words text < minW ∧ count_words last.2 + count_words text ≤ maxW then
      mergeGo maxW minW (last.1, stripChars (last.2 ++ nl2 ++ text)) rest
    else
      last :: mergeGo maxW minW (sec, text) rest

/-- `chunk_section(section_title, paragraphs, target_words=target,
max_words=maxW, min_words=minW)`. -/
def chunk_section (sec : List Char) (paragraphs : List (List Char))
    (target maxW minW : Nat) : List (List Char × List Char) :=
  let items := csGo sec target maxW paragraphs [] 0 []
  if items.length ≤ 1 then items
  else
    match items with
    | [] => []
    | it :: rest => mergeGo maxW minW it rest

/-! ### Word-count facts about the blank-line join -/

theorem nl2_ne_nil : nl2 ≠ [] := by simp [nl2]

theorem nl2_not_word : ∀ c ∈ nl2, isWordChar c = false := by
  intro c hc
  rcases List.mem_cons.mp hc with rfl | hc
  · rfl
  · rw [List.mem_singleton.mp hc]; rfl

theorem count_words_join_nl2 (ch : List (List Char)) :
    count_words (stripChars (joinSep nl2 ch)) = (ch.map count_words).sum := by
  rw [count_words_stripChars]
  exact count_words_joinSep nl2_ne_nil nl2_not_word ch

theorem count_words_merge (a b : List Char) :
    count_words (stripChars (a ++ nl2 ++ b)) = count_words a + count_words b := by
  rw [count_words_stripChars, count_words_eq_cwFrom,
    cwFrom_append_sep nl2_ne_nil nl2_not_word, ← count_words_eq_cwFrom,
    ← count_words_eq_cwFrom]

theorem joinSep_ne_nil (sep : List Char) :
    ∀ ch : List (List Char), ch ≠ [] → (∀ s ∈ ch, s ≠ []) → joinSep sep ch ≠ []
  | [], h, _ => absurd rfl h
  | [x], _, hall => by simpa [joinSep] using hall x (by simp)
  | x :: y :: t, _, hall => by
    show x ++ sep ++ joinSep sep (y :: t) ≠ []
    have hx : x ≠ [] := hall x (by simp)
    simp [hx]

theorem joinSep_head (sep s1 : List Char) (rest : List (List Char)) (h : s1 ≠ []) :
    (joinSep sep (s1 :: rest)).head? = s1.head? := by
  rcases rest with _ | ⟨s2, t⟩
  · rfl
  · show (s1 ++ sep ++ joinSep sep (s2 :: t)).head? = s1.head?
    rcases s1 with _ | ⟨c, cs⟩
    · exact absurd rfl h
    · rfl

theorem joinSep_getLast (sep : List Char) :
    ∀ (rest : List (List Char)) (s1 : List Char), (∀ s ∈ s1 :: rest, s ≠ []) →
      ∃ t ∈ s1 :: rest, (joinSep sep (s1 :: rest)).getLast? = t.getLast?
  | [], s1, _ => ⟨s1, by simp, rfl⟩
  | s2 :: rest2, s1, hall => by
    obtain ⟨t, ht, hlast⟩ :=
      joinSep_getLast sep rest2 s2 (fun s hs => hall s (List.mem_cons_of_mem s1 hs))
    refine ⟨t, List.mem_cons_of_mem s1 ht, ?_⟩
    show (s1 ++ sep ++ joinSep sep (s2 :: rest2)).getLast? = t.getLast?
    rw [List.getLast?_append, hlast]
    have htne : t ≠ [] := hall t (List.mem_cons_of_mem s1 ht)
    rw [List.getLast?_eq_getLast t htne]
    rfl

/-- Joining stripped non-empty pieces yields already-stripped text. -/
theorem stripChars_joinSep (sep : List Char) (ch : List (List Char)) (hne : ch ≠ [])
    (hgood : ∀ s ∈ ch, stripChars s = s ∧ s ≠ []) :
    stripChars (joinSep sep ch) = joinSep sep ch := by
  rcases ch with _ | ⟨s1, rest⟩
  · exact absurd rfl hne
  apply stripWith_eq_self
  · intro c hc
    rw [joinSep_head sep s1 rest (hgood s1 (by simp)).2] at hc
    apply stripWith_head isPySpace s1
    show (stripChars s1).head? = some c
    rw [(hgood s1 (by simp)).1]
    exact hc
  · intro c hc
    obtain ⟨t, ht, hlast⟩ := joinSep_getLast sep rest s1 (fun s hs => (hgood s hs).2)
    rw [hlast] at hc
    apply stripWith_last isPySpace t
    show (stripChars t).getLast? = some c
    rw [(hgood t ht).1]
    exact hc

theorem joinSep_append (sep : List Char) :
    ∀ l1 l2 : List (List Char), l1 ≠ [] → l2 ≠ [] →
      joinSep sep (l1 ++ l2) = joinSep sep l1 ++ sep ++ joinSep sep l2
  | [], _, h, _ => absurd rfl h
  | [x], l2, _, h2 => by
    rcases l2 with _ | ⟨y, t⟩
    · exact absurd rfl h2
    · rfl
  | x :: x2 :: t1, l2, _, h2 => by
    have ih := joinSep_append sep (x2 :: t1) l2 (by simp) h2
    show x ++ sep ++ joinSep sep ((x2 :: t1) ++ l2) =
      (x ++ sep ++ joinSep sep (x2 :: t1)) ++ sep ++ joinSep sep l2
    rw [ih]
    simp [List.append_assoc]

/-! ### The hard word cap through `chunk_section` -/

theorem emitCurrent_le {m : Nat} (sec : List Char) (items : List (List Char × List Char))
    (current : List (List Char))
    (hitems : ∀ it ∈ items, count_words it.2 ≤ m)
    (hcur : (current.map count_words).sum ≤ m) :
    ∀ it ∈ emitCurrent sec items current, count_words it.2 ≤ m := by
  intro it hit
  simp only [emitCurrent] at hit
  split_ifs at hit
  · exact hitems it hit
  · exact hitems it hit
  · rcases List.mem_append.mp hit with h | h
    · exact hitems it h
    · rw [List.mem_singleton.mp h]
      simpa [count_words_join_nl2] using hcur

theorem csGo_le (sec : List Char) (target m : Nat) :
    ∀ (paras current : List (List Char)) (cw : Nat)
      (items : List (List Char × List Char)),
      (∀ p ∈ paras, ∀ s ∈ sentencesOf p, count_words s ≤ m) →
      (∀ it ∈ items, count_words it.2 ≤ m) →
      cw = (current.map count_words).sum → cw ≤ m →
      ∀ it ∈ csGo sec target m paras current cw items, count_words it.2 ≤ m := by
  intro paras
  induction paras with
  | nil =>
    intro current cw items _ hitems hcw hle it hit
    rw [csGo] at hit
    exact emitCurrent_le sec items current hitems (hcw ▸ hle) it hit
  | cons p rest ih =>
    intro current cw items hsent hitems hcw hle it hit
    have hcur_le : (current.map count_words).sum ≤ m := hcw ▸ hle
    have hrest : ∀ q ∈ rest, ∀ s ∈ sentencesOf q, count_words s ≤ m :=
      fun q hq => hsent q (List.mem_cons_of_mem p hq)
    have hp : ∀ s ∈ sentencesOf p, count_words s ≤ m := hsent p (List.mem_cons_self p rest)
    rw [csGo] at hit
    split_ifs at hit with h1 h2 h3 h4 h5
    · exact ih [] 0 _ hrest (emitCurrent_le sec items current hitems hcur_le)
        rfl (Nat.zero_le _) it hit
    · refine ih [] 0 _ hrest ?_ rfl (Nat.zero_le _) it hit
      intro it2 hit2
      rcases List.mem_append.mp hit2 with hh | hh
      · exact emitCurrent_le sec items current hitems hcur_le it2 hh
      · obtain ⟨piece, hpiece, rfl⟩ := List.mem_map.mp hh
        exact split_oversized_paragraph_le target m p hp piece hpiece
    · -- overflow flush, then the lone paragraph reaches the target at once
      have hpw : count_words p ≤ m := by omega
      refine ih [] 0 _ hrest ?_ rfl (Nat.zero_le _) it hit
      apply emitCurrent_le
      · exact emitCurrent_le sec items current hitems hcur_le
      · simpa using hpw
    · have hpw : count_words p ≤ m := by omega
      exact ih [p] (count_words p) _ hrest
        (emitCurrent_le sec items current hitems hcur_le) (by simp) hpw it hit
    · -- appended and flushed at the target
      have hsum : cw + count_words p ≤ m := by
        rcases not_and_or.mp h3 with h | h
        · have hcur : current = [] := not_not.mp h
          subst hcur
          simp only [List.map_nil, List.sum_nil] at hcw
          omega
        · omega
      refine ih [] 0 _ hrest ?_ rfl (Nat.zero_le _) it hit
      apply emitCurrent_le sec items (current ++ [p]) hitems
      simp only [List.map_append, List.sum_append, List.map_cons, List.sum_cons,
        List.map_nil, List.sum_nil, ← hcw]
      omega
    · have hsum : cw + count_words p ≤ m := by
        rcases not_and_or.mp h3 with h | h
        · have hcur : current = [] := not_not.mp h
          subst hcur
          simp only [List.map_nil, List.sum_nil] at hcw
          omega
        · omega
      refine ih (current ++ [p]) (cw + count_words p) _ hrest hitems ?_ hsum it hit
      simp [← hcw]

theorem mergeGo_le (m minW : Nat) :
    ∀ (rest : List (List Char × List Char)) (last : List Char × List Char),
      count_words last.2 ≤ m → (∀ it ∈ rest, count_words it.2 ≤ m) →
      ∀ it ∈ mergeGo m minW last rest, count_words it.2 ≤ m
  | [], last, hlast, _, it, hit => by
    rw [mergeGo] at hit
    rw [List.mem_singleton.mp hit]
    exact hlast
  | (sec, text) :: rest, last, hlast, hrest, it, hit => by
    rw [mergeGo] at hit
    split_ifs at hit with h
    · refine mergeGo_le m minW rest _ ?_
        (fun it2 hit2 => hrest it2 (List.mem_cons_of_mem _ hit2)) it hit
      show count_words (stripChars (last.2 ++ nl2 ++ text)) ≤ m
      rw [count_words_merge]
      exact h.2
    · rcases List.mem_cons.mp hit with rfl | hit2
      · exact hlast
      · exact mergeGo_le m minW rest (sec, text)
          (hrest (sec, text) (List.mem_cons_self _ rest))
          (fun it2 h2 => hrest it2 (List.mem_cons_of_mem _ h2)) it hit2

/-- Every unit produced by `chunk_section` is within the hard cap `m`,
provided no single sentence of any input paragraph exceeds `m` words. -/
theorem chunk_section_le (sec : List Char) (paragraphs : List (List Char))
    (target m minW : Nat)
    (hsent : ∀ p ∈ paragraphs, ∀ s ∈ sentencesOf p, count_words s ≤ m) :
    ∀ it ∈ chunk_section sec paragraphs target m minW, count_words it.2 ≤ m := by
  intro it hit
  have hall : ∀ it2 ∈ csGo sec target m paragraphs [] 0 [],
      count_words it2.2 ≤ m :=
    csGo_le sec target m paragraphs [] 0 [] hsent (by simp) rfl (Nat.zero_le _)
  rw [chunk_section] at hit
  split_ifs at hit with h
  · exact hall it hit
  · rcases hcs : csGo sec target m paragraphs [] 0 [] with _ | ⟨it1, rest⟩
    · rw [hcs] at hit
      simp at hit
    · rw [hcs] at hit
      rw [hcs] at hall
      exact mergeGo_le m minW rest it1 (hall it1 (List.mem_cons_self it1 rest))
        (fun it2 h2 => hall it2 (List.mem_cons_of_mem it1 h2)) it hit

/-! ### A section whose cumulative word count is exactly `target_words` -/

/-- Flushing a non-empty accumulator of stripped non-empty paragraphs emits
exactly one item whose text is their blank-line join. -/
theorem emitCurrent_of_good (sec : List Char) (items : List (List Char × List Char))
    (current : List (List Char)) (hne : current ≠ [])
    (hgood : ∀ p ∈ current, stripChars p = p ∧ p ≠ []) :
    emitCurrent sec items current = items ++ [(sec, joinSep nl2 current)] := by
  have hstrip : stripChars (joinSep nl2 current) = joinSep nl2 current :=
    stripChars_joinSep nl2 current hne hgood
  have hne2 : joinSep nl2 current ≠ [] :=
    joinSep_ne_nil nl2 current hne (fun s hs => (hgood s hs).2)
  simp only [emitCurrent, if_neg hne, hstrip, if_neg hne2]

/-- Once only zero-word, non-structural paragraphs remain and the target has
not been reached, the loop just accumulates them and flushes at the end. -/
theorem csGo_zero (sec : List Char) (target maxW : Nat) (hmax : target ≤ maxW) :
    ∀ (paras current : List (List Char)) (cw : Nat)
      (items : List (List Char × List Char)),
      (∀ p ∈ paras, is_structural_heading_paragraph p = false ∧ count_words p = 0) →
      cw = (current.map count_words).sum → cw < target →
      csGo sec target maxW paras current cw items = emitCurrent sec items (current ++ paras)
  | [], current, cw, items, _, _, _ => by
    rw [csGo, List.append_nil]
  | p :: rest, current, cw, items, hz, hcw, hlt => by
    obtain ⟨hstr, hzero⟩ := hz p (List.mem_cons_self p rest)
    have hov : ¬ maxW < count_words p := by rw [hzero]; omega
    have hfl : ¬ (current ≠ [] ∧ maxW < cw + count_words p) := by
      rw [hzero]
      rintro ⟨_, h⟩
      omega
    have htg : ¬ target ≤ cw + count_words p := by rw [hzero]; omega
    rw [csGo, if_neg (by simp [hstr]), if_neg hov, if_neg hfl, if_neg htg]
    have ih := csGo_zero sec target maxW hmax rest (current ++ [p]) (cw + count_words p)
      items (fun q hq => hz q (List.mem_cons_of_mem p hq))
      (by simp [hcw]) (by omega)
    rw [ih, List.append_assoc]
    rfl

/-- The exact-target run of the main loop: all paragraphs are non-structural,
stripped and non-empty, and the words still to come fill the accumulator to
exactly `target`.  The result is the pending items plus either one flushed
unit covering everything, or one unit reaching `target` followed by one
zero-word trailing unit. -/
theorem csGo_exact (sec : List Char) (target maxW : Nat) (hmax : target ≤ maxW) :
    ∀ (paras current : List (List Char)) (cw : Nat)
      (items : List (List Char × List Char)),
      (∀ p ∈ paras,
        is_structural_heading_paragraph p = false ∧ stripChars p = p ∧ p ≠ []) →
      (∀ p ∈ current, stripChars p = p ∧ p ≠ []) →
      cw = (current.map count_words).sum →
      cw + (paras.map count_words).sum = target →
      cw < target →
      ∃ l1 l2, paras = l1 ++ l2 ∧
        ((current ++ l1).map count_words).sum = target ∧
        (∀ p ∈ l2, count_words p = 0) ∧
        ((l2 = [] ∧ csGo sec target maxW paras current cw items =
            items ++ [(sec, joinSep nl2 (current ++ l1))]) ∨
          (l2 ≠ [] ∧ csGo sec target maxW paras current cw items =
            items ++ [(sec, joinSep nl2 (current ++ l1)),
              (sec, joinSep nl2 l2)])) := by
  intro paras
  induction paras with
  | nil =>
    intro current cw items _ _ _ hsum hlt
    simp only [List.map_nil, List.sum_nil, Nat.add_zero] at hsum
    omega
  | cons p rest ih =>
    intro current cw items hgoodp hgoodc hcw hsum hlt
    obtain ⟨hstr, hstrip, hpne⟩ := hgoodp p (List.mem_cons_self p rest)
    have hrest : ∀ q ∈ rest,
        is_structural_heading_paragraph q = false ∧ stripChars q = q ∧ q ≠ [] :=
      fun q hq => hgoodp q (List.mem_cons_of_mem p hq)
    simp only [List.map_cons, List.sum_cons] at hsum
    have hov : ¬ maxW < count_words p := by omega
    have hfl : ¬ (current ≠ [] ∧ maxW < cw + count_words p) := by
      rintro ⟨_, h⟩
      omega
    by_cases htg : target ≤ cw + count_words p
    · -- flush: the accumulator reaches the target at this paragraph
      have heq : cw + count_words p = target := by omega
      have hz : ∀ q ∈ rest, count_words q = 0 := by
        intro q hq
        have hzs : (rest.map count_words).sum = 0 := by omega
        have := List.sum_eq_zero_iff.mp hzs (count_words q) (List.mem_map_of_mem _ hq)
        exact this
      have hgood1 : ∀ q ∈ current ++ [p], stripChars q = q ∧ q ≠ [] := by
        intro q hq
        rcases List.mem_append.mp hq with hq | hq
        · exact hgoodc q hq
        · rw [List.mem_singleton.mp hq]
          exact ⟨hstrip, hpne⟩
      rw [csGo, if_neg (by simp [hstr]), if_neg hov, if_neg hfl, if_pos htg,
        emitCurrent_of_good sec items (current ++ [p]) (by simp) hgood1,
        csGo_zero sec target maxW hmax rest [] 0 _
          (fun q hq => ⟨(hrest q hq).1, hz q hq⟩) rfl (by omega),
        List.nil_append]
      refine ⟨[p], rest, rfl, ?_, hz, ?_⟩
      · simp only [List.map_append, List.sum_append, List.map_cons, List.sum_cons,
          List.map_nil, List.sum_nil, ← hcw]
        omega
      · rcases hr : rest with _ | ⟨q, rest2⟩
        · refine Or.inl ⟨rfl, ?_⟩
          rw [emitCurrent]
          simp
        · refine Or.inr ⟨by simp, ?_⟩
          rw [emitCurrent_of_good sec _ (q :: rest2) (by simp)
            (fun x hx => ⟨(hrest x (by rw [hr]; exact hx)).2.1,
              (hrest x (by rw [hr]; exact hx)).2.2⟩)]
          simp [List.append_assoc]
    · -- keep accumulating
      rw [csGo, if_neg (by simp [hstr]), if_neg hov, if_neg hfl, if_neg htg]
      obtain ⟨l1, l2, hsplit, hsum1, hz2, hres⟩ :=
        ih (current ++ [p]) (cw + count_words p) items hrest
          (by
            intro q hq
            rcases List.mem_append.mp hq with hq | hq
            · exact hgoodc q hq
            · rw [List.mem_singleton.mp hq]; exact ⟨hstrip, hpne⟩)
          (by simp [hcw]) (by omega) (by omega)
      refine ⟨p :: l1, l2, by rw [hsplit]; rfl, ?_, hz2, ?_⟩
      · have hre : current ++ p :: l1 = (current ++ [p]) ++ l1 := by simp
        rw [hre]
        exact hsum1
      · have hre : current ++ p :: l1 = (current ++ [p]) ++ l1 := by simp
        rw [hre]
        exact hres

/-- C6, counterexample to the claim as stated: the three paragraphs
`".."`, `"IV"`, `"q"` have cumulative word count exactly `target_words = 2`
(with `max_words = 2 ≥ target`, `min_words = 1`), yet `chunk_section`
produces two units, not one, and the structural stub `"IV"` is dropped from
the output text. -/
theorem claim_C6_counterexample :
    ((["..".data, "IV".data, "q".data].map count_words).sum = 2) ∧
      chunk_section ("S".data) ["..".data, "IV".data, "q".data] 2 2 1 =
        [(("S".data : List Char), "..".data), (("S".data : List Char), "q".data)] ∧
      (chunk_section ("S".data) ["..".data, "IV".data, "q".data] 2 2 1).length ≠ 1 := by
  decide

/-- C6 (amended): if none of the section's paragraphs is classified as a
structural heading stub, every paragraph is non-empty and already stripped
(as the paragraph extractor produces them), `1 ≤ target_words ≤ max_words`
and `min_words ≥ 1`, then a section whose cumulative word count is exactly
`target_words` yields exactly one flushed unit covering all the section's
paragraphs. -/
theorem claim_C6 (sec : List Char) (paragraphs : List (List Char)) (target maxW minW : Nat)
    (hgood : ∀ p ∈ paragraphs,
      is_structural_heading_paragraph p = false ∧ stripChars p = p ∧ p ≠ [])
    (hsum : (paragraphs.map count_words).sum = target)
    (hpos : 1 ≤ target) (hmax : target ≤ maxW) (hmin : 1 ≤ minW) :
    chunk_section sec paragraphs target maxW minW = [(sec, joinSep nl2 paragraphs)] := by
  obtain ⟨l1, l2, hsplit, hsum1, hz, hres⟩ :=
    csGo_exact sec target maxW hmax paragraphs [] 0 [] hgood (by simp) rfl
      (by simpa using hsum) (by omega)
  have hl1ne : l1 ≠ [] := by
    intro h
    rw [h] at hsum1
    simp at hsum1
    omega
  rcases hres with ⟨hl2, heq⟩ | ⟨hl2, heq⟩
  · subst hl2
    rw [List.append_nil] at hsplit
    subst hsplit
    have hcs : csGo sec target maxW paragraphs [] 0 [] =
        [(sec, joinSep nl2 paragraphs)] := by
      simpa using heq
    simp [chunk_section, hcs]
  · have hcs : csGo sec target maxW paragraphs [] 0 [] =
        [(sec, joinSep nl2 l1), (sec, joinSep nl2 l2)] := by
      simpa using heq
    have hw2 : count_words (joinSep nl2 l2) = 0 := by
      rw [count_words_joinSep nl2_ne_nil nl2_not_word]
      apply List.sum_eq_zero_iff.mpr
      intro x hx
      obtain ⟨q, hq, rfl⟩ := List.mem_map.mp hx
      exact hz q hq
    have hw1 : count_words (joinSep nl2 l1) = target := by
      rw [count_words_joinSep nl2_ne_nil nl2_not_word]
      simpa using hsum1
    simp only [chunk_section, hcs]
    rw [if_neg (by simp)]
    have hcond : count_words (joinSep nl2 l2) < minW ∧
        count_words ((sec, joinSep nl2 l1) : List Char × List Char).2 +
          count_words (joinSep nl2 l2) ≤ maxW := by
      constructor
      · omega
      · show count_words (joinSep nl2 l1) + count_words (joinSep nl2 l2) ≤ maxW
        omega
    rw [mergeGo, if_pos hcond, mergeGo]
    show [(sec, stripChars (joinSep nl2 l1 ++ nl2 ++ joinSep nl2 l2))] =
      [(sec, joinSep nl2 paragraphs)]
    rw [← joinSep_append nl2 l1 l2 hl1ne hl2, ← hsplit,
      stripChars_joinSep nl2 paragraphs ?hne
        (fun s hs => ⟨(hgood s hs).2.1, (hgood s hs).2.2⟩)]
    intro h
    rw [h] at hsplit
    exact hl1ne (List.append_eq_nil.mp hsplit.symm).1

theorem claim_C6_witness :
    ((["one two".data, "three".data].map count_words).sum = 3) ∧
      chunk_section ("S".data) ["one two".data, "three".data] 3 3 1 =
        [(("S".data : List Char), joinSep nl2 ["one two".data, "three".data])] :=
  ⟨by decide, claim_C6 ("S".data) ["one two".data, "three".data] 3 3 1
    (by decide) (by decide) (by decide) (by decide) (by decide)⟩

/-! ### `normalize_text` and the Gutenberg boilerplate stripper -/

/-- `text.replace("\r\n", "\n")`: a left-to-right scan replacing each
non-overlapping occurrence. -/
def replCRLF : List Char → List Char
  | '\r' :: '\n' :: rest => '\n' :: replCRLF rest
  | c :: rest => c :: replCRLF rest
  | [] => []

/-- Case-insensitive literal prefix match; returns the remaining input. -/
def dropPrefixCI : List Char → List Char → Option (List Char)
  | [], cs => some cs
  | _ :: _, [] => none
  | p :: ps, c :: cs => if p.toLower == c.toLower then dropPrefixCI ps cs else none

/-- The lazy `.*?\*\*\*` tail of the boilerplate regexes: scan forward (never
across a newline, since `re.DOTALL` is not set) to the earliest `"***"`, and
return the total number of characters consumed including it. -/
def lazyToStars : Nat → List Char → Option Nat
  | k, '*' :: '*' :: '*' :: _ => some (k + 3)
  | k, c :: rest => if c = '\n' then none else lazyToStars (k + 1) rest
  | _, [] => none

/-- `"***"`. -/
def stars3 : List Char := ['*', '*', '*']

/-- Match one Gutenberg marker anchored at the head of `cs`:
`\*\*\*\s*` then one of the two phrase alternatives (`THE` tried before
`THIS`, as in the regex alternation), then `.*?\*\*\*`.  Returns the number
of characters matched. -/
def markerAt (phrase1 phrase2 : List Char) (cs : List Char) : Option Nat :=
  match dropPrefixCI stars3 cs with
  | none => none
  | some r1 =>
    let ws := r1.takeWhile isPySpace
    let r2 := r1.dropWhile isPySpace
    match dropPrefixCI phrase1 r2 with
    | some r3 => (lazyToStars 0 r3).map (fun k => 3 + ws.length + phrase1.length + k)
    | none =>
      match dropPrefixCI phrase2 r2 with
      | some r3 => (lazyToStars 0 r3).map (fun k => 3 + ws.length + phrase2.length + k)
      | none => none

/-- `re.search`: try the marker at every position, left to right; returns
`(start, end)` indices of the leftmost match. -/
def searchMarker (phrase1 phrase2 : List Char) : Nat → List Char → Option (Nat × Nat)
  | _, [] => none
  | i, c :: rest =>
    match markerAt phrase1 phrase2 (c :: rest) with
    | some k => some (i, i + k)
    | none => searchMarker phrase1 phrase2 (i + 1) rest

/-- `START OF (?:THE|THIS) PROJECT GUTENBERG EBOOK ` — the two alternatives
of `_GUTENBERG_START_RE` after the stars and whitespace. -/
def gutenbergStartPhrase1 : List Char := "START OF THE PROJECT GUTENBERG EBOOK ".data

def gutenbergStartPhrase2 : List Char := "START OF THIS PROJECT GUTENBERG EBOOK ".data

/-- The two alternatives of `_GUTENBERG_END_RE`. -/
def gutenbergEndPhrase1 : List Char := "END OF THE PROJECT GUTENBERG EBOOK ".data

def gutenbergEndPhrase2 : List Char := "END OF THIS PROJECT GUTENBERG EBOOK ".data

/-- `strip_gutenberg_boilerplate`.  As in the source, both searches run on
the original text; the end-match start index is then applied to the
already-sliced text (Python slicing clamps, as `List.take` does). -/
def strip_gutenberg_boilerplate (text : List Char) : List Char :=
  let sm := searchMarker gutenbergStartPhrase1 gutenbergStartPhrase2 0 text
  let em := searchMarker gutenbergEndPhrase1 gutenbergEndPhrase2 0 text
  let t1 := match sm with
    | some se => text.drop se.2
    | none => text
  let t2 := match em with
    | some se => t1.take se.1
    | none => t1
  stripChars t2

/-- `re.sub(r"[ \t]+", " ", text)`: collapse every run of spaces and tabs to
a single space.  `inRun` records whether the previous character was in the
run being collapsed. -/
def collapseHTGo : Bool → List Char → List Char
  | _, [] => []
  | inRun, c :: rest =>
    if c = ' ' ∨ c = '\t' then
      if inRun then collapseHTGo true rest else ' ' :: collapseHTGo true rest
    else c :: collapseHTGo false rest

def collapseHT (cs : List Char) : List Char :=
  collapseHTGo false cs

/-- `re.sub(r"\n\{3,\}", "\n\n", text)`: for every run of three or more
newlines emit exactly two.  `k` counts the newlines of the current run
already seen. -/
def collapseNLGo : Nat → List Char → List Char
  | _, [] => []
  | k, c :: rest =>
    if c = '\n' then
      if 2 ≤ k then collapseNLGo (k + 1) rest
      else '\n' :: collapseNLGo (k + 1) rest
    else c :: collapseNLGo 0 rest

def collapseNL (cs : List Char) : List Char :=
  collapseNLGo 0 cs

/-- `normalize_text` from the source. -/
def normalize_text (raw : List Char) : List Char :=
  let t1 := replCRLF raw
  let t2 := t1.map (fun c => if c = '\r' then '\n' else c)
  let t3 := t2.filter (fun c => c ≠ '\uFEFF')
  let t4 := strip_gutenberg_boilerplate t3
  let t5 := collapseHT t4
  let t6 := collapseNL t5
  stripChars t6

/-- The first start-of-work marker of the counterexample text. -/
def gutenbergMarker : List Char := "*** START OF THE PROJECT GUTENBERG EBOOK ***".data

/-- A text containing two start-of-work markers. -/
def doubleMarkerText : List Char :=
  gutenbergMarker ++ "\nA\n".data ++ gutenbergMarker ++ "\nB".data

/-- C7, counterexample: `normalize_text` is not idempotent.  On a text with
two Gutenberg start markers the first pass strips only up to the first
marker, leaving the second in the output, which a second pass then strips
again. -/
theorem claim_C7_counterexample :
    normalize_text (normalize_text doubleMarkerText) ≠ normalize_text doubleMarkerText := by
  decide

/-! ### Idempotence of `normalize_text` on marker-free output -/

theorem mem_stripWith {p : Char → Bool} {l : List Char} {c : Char}
    (h : c ∈ stripWith p l) : c ∈ l := by
  rw [stripWith] at h
  exact List.dropWhile_subset p ((List.rdropWhile_prefix p _).subset h)

theorem mem_strip_gutenberg {t : List Char} {c : Char}
    (h : c ∈ strip_gutenberg_boilerplate t) : c ∈ t := by
  rw [strip_gutenberg_boilerplate] at h
  have h1 := mem_stripWith h
  rcases hem : searchMarker gutenbergEndPhrase1 gutenbergEndPhrase2 0 t with _ | se <;>
    rcases hsm : searchMarker gutenbergStartPhrase1 gutenbergStartPhrase2 0 t with _ | ss <;>
    rw [hem, hsm] at h1 <;> dsimp only at h1
  · exact h1
  · exact List.drop_subset _ _ h1
  · exact List.take_subset _ _ h1
  · exact List.drop_subset _ _ (List.take_subset _ _ h1)

theorem mem_collapseHTGo {c : Char} :
    ∀ (l : List Char) (b : Bool), c ∈ collapseHTGo b l → c = ' ' ∨ c ∈ l
  | [], _, h => by simp [collapseHTGo] at h
  | d :: rest, b, h => by
    rw [collapseHTGo] at h
    split_ifs at h with h1 h2
    · rcases mem_collapseHTGo rest true h with h3 | h3
      · exact Or.inl h3
      · exact Or.inr (List.mem_cons_of_mem d h3)
    · rcases List.mem_cons.mp h with rfl | h3
      · exact Or.inl rfl
      · rcases mem_collapseHTGo rest true h3 with h4 | h4
        · exact Or.inl h4
        · exact Or.inr (List.mem_cons_of_mem d h4)
    · rcases List.mem_cons.mp h with rfl | h3
      · exact Or.inr (List.mem_cons_self c rest)
      · rcases mem_collapseHTGo rest false h3 with h4 | h4
        · exact Or.inl h4
        · exact Or.inr (List.mem_cons_of_mem d h4)

theorem mem_collapseNLGo {c : Char} :
    ∀ (l : List Char) (k : Nat), c ∈ collapseNLGo k l → c ∈ l
  | [], _, h => by simp [collapseNLGo] at h
  | d :: rest, k, h => by
    rw [collapseNLGo] at h
    split_ifs at h with h1 h2
    · exact List.mem_cons_of_mem d (mem_collapseNLGo rest (k + 1) h)
    · rcases List.mem_cons.mp h with rfl | h3
      · rw [h1]; exact List.mem_cons_self _ rest
      · exact List.mem_cons_of_mem d (mem_collapseNLGo rest (k + 1) h3)
    · rcases List.mem_cons.mp h with rfl | h3
      · exact List.mem_cons_self c rest
      · exact List.mem_cons_of_mem d (mem_collapseNLGo rest 0 h3)

/-- The output of `normalize_text` contains no carriage return. -/
theorem normalize_text_no_cr {x : List Char} {c : Char} (h : c ∈ normalize_text x) :
    c ≠ '\r' := by
  rw [normalize_text] at h
  have h6 := mem_stripWith h
  have h5 := mem_collapseNLGo _ 0 h6
  rcases mem_collapseHTGo _ false h5 with h4 | h4
  · subst h4; decide
  · have h3 := List.mem_filter.mp (mem_strip_gutenberg h4)
    obtain ⟨cc, _, rfl⟩ := List.mem_map.mp h3.1
    by_cases hr : cc = '\r'
    · simp [hr]
    · simp [hr]

/-- The output of `normalize_text` contains no byte-order mark. -/
theorem normalize_text_no_bom {x : List Char} {c : Char} (h : c ∈ normalize_text x) :
    c ≠ '\uFEFF' := by
  rw [normalize_text] at h
  have h6 := mem_stripWith h
  have h5 := mem_collapseNLGo _ 0 h6
  rcases mem_collapseHTGo _ false h5 with h4 | h4
  · subst h4; decide
  · have h3 := List.mem_filter.mp (mem_strip_gutenberg h4)
    simpa using h3.2

/-- No two adjacent characters are both horizontal whitespace: the state of
text after the `[ \t]+` collapse. -/
def noPairHT (a b : Char) : Prop :=
  ¬((a = ' ' ∨ a = '\t') ∧ (b = ' ' ∨ b = '\t'))

theorem collapseHTGo_no_tab :
    ∀ (l : List Char) (b : Bool) (c : Char), c ∈ collapseHTGo b l → c ≠ '\t'
  | [], _, c, h => by simp [collapseHTGo] at h
  | d :: rest, b, c, h => by
    rw [collapseHTGo] at h
    split_ifs at h with h1 h2
    · exact collapseHTGo_no_tab rest true c h
    · rcases List.mem_cons.mp h with rfl | h3
      · decide
      · exact collapseHTGo_no_tab rest true c h3
    · rcases List.mem_cons.mp h with rfl | h3
      · intro hcd
        exact h1 (Or.inr hcd)
      · exact collapseHTGo_no_tab rest false c h3

theorem collapseHTGo_head_true :
    ∀ (l : List Char) (c : Char), (collapseHTGo true l).head? = some c →
      ¬(c = ' ' ∨ c = '\t')
  | [], c, h => by simp [collapseHTGo] at h
  | d :: rest, c, h => by
    by_cases h1 : d = ' ' ∨ d = '\t'
    · rw [collapseHTGo, if_pos h1, if_pos rfl] at h
      exact collapseHTGo_head_true rest c h
    · rw [collapseHTGo, if_neg h1] at h
      simp only [List.head?_cons, Option.some.injEq] at h
      subst h
      exact h1

theorem collapseHTGo_chain :
    ∀ (l : List Char) (b : Bool), List.Chain' noPairHT (collapseHTGo b l)
  | [], _ => by simp [collapseHTGo]
  | d :: rest, b => by
    rw [collapseHTGo]
    split_ifs with h1 h2
    · exact collapseHTGo_chain rest true
    · refine List.chain'_cons'.mpr ⟨?_, collapseHTGo_chain rest true⟩
      intro y hy hcon
      exact collapseHTGo_head_true rest y hy hcon.2
    · refine List.chain'_cons'.mpr ⟨?_, collapseHTGo_chain rest false⟩
      intro y _ hcon
      exact h1 hcon.1

theorem collapseHTGo_eq_self :
    ∀ (l : List Char) (b : Bool), (∀ c ∈ l, c ≠ '\t') → List.Chain' noPairHT l →
      (b = true → ∀ c, l.head? = some c → ¬(c = ' ' ∨ c = '\t')) →
      collapseHTGo b l = l
  | [], _, _, _, _ => rfl
  | d :: rest, b, hnt, hch, hb => by
    by_cases hd : d = ' ' ∨ d = '\t'
    · have hb' : b = false := by
        rcases b
        · rfl
        · exact absurd hd (hb rfl d rfl)
      subst hb'
      have hd' : d = ' ' := by
        rcases hd with h | h
        · exact h
        · exact absurd h (hnt d (List.mem_cons_self d rest))
      rw [collapseHTGo, if_pos hd, if_neg (by simp)]
      rw [hd']
      congr 1
      refine collapseHTGo_eq_self rest true
        (fun c hc => hnt c (List.mem_cons_of_mem d hc))
        (List.chain'_cons'.mp hch).2 ?_
      intro _ c hc hcc
      exact (List.chain'_cons'.mp hch).1 c hc ⟨hd, hcc⟩
    · rw [collapseHTGo, if_neg hd]
      congr 1
      exact collapseHTGo_eq_self rest false
        (fun c hc => hnt c (List.mem_cons_of_mem d hc))
        (List.chain'_cons'.mp hch).2 (by simp)

/-- No three consecutive newlines: the state of text after the `\n` run
collapse. -/
def no3NL (l : List Char) : Prop :=
  ¬ (['\n', '\n', '\n'] <:+: l)

theorem no3NL_nil : no3NL [] := by
  intro h
  have := h.length_le
  simp at this

theorem no3NL_of_cons {c : Char} {l : List Char} (h : no3NL (c :: l)) : no3NL l :=
  fun hi => h (List.infix_cons_iff.mpr (Or.inr hi))

theorem no3NL_cons_of {c : Char} {l : List Char} (h3 : no3NL l)
    (hp : c = '\n' → ¬(['\n', '\n'] <+: l)) : no3NL (c :: l) := by
  intro hi
  rcases List.infix_cons_iff.mp hi with hpre | hinf
  · rw [List.cons_prefix_cons] at hpre
    exact hp hpre.1.symm hpre.2
  · exact h3 hinf

theorem collapseNLGo_inv :
    ∀ (l : List Char) (k : Nat),
      no3NL (collapseNLGo k l) ∧
        (2 ≤ k → ∀ c, (collapseNLGo k l).head? = some c → c ≠ '\n') ∧
        (k = 1 → ¬(['\n', '\n'] <+: collapseNLGo k l)) := by
  intro l
  induction l with
  | nil =>
    intro k
    refine ⟨no3NL_nil, ?_, ?_⟩
    · intro _ c hc; simp [collapseNLGo] at hc
    · intro _ h
      have := h.length_le
      simp [collapseNLGo] at this
  | cons d rest ih =>
    intro k
    by_cases hd : d = '\n'
    · subst hd
      by_cases hk : 2 ≤ k
      · rw [collapseNLGo, if_pos rfl, if_pos hk]
        refine ⟨(ih (k + 1)).1, ?_, ?_⟩
        · intro _ c hc
          exact (ih (k + 1)).2.1 (by omega) c hc
        · intro hk1
          omega
      · rw [collapseNLGo, if_pos rfl, if_neg hk]
        have hnotwo : ¬(['\n', '\n'] <+: collapseNLGo (k + 1) rest) := by
          have hknum : k = 0 ∨ k = 1 := by omega
          rcases hknum with rfl | rfl
          · exact (ih 1).2.2 rfl
          · intro h2
            obtain ⟨t, ht⟩ := h2
            exact (ih 2).2.1 (by omega) '\n' (by rw [← ht]; rfl) rfl
        refine ⟨no3NL_cons_of (ih (k + 1)).1 (fun _ => hnotwo), ?_, ?_⟩
        · intro hk2
          omega
        · intro hk1'
          subst hk1'
          intro h2
          rw [List.cons_prefix_cons] at h2
          obtain ⟨t, ht⟩ := h2.2
          exact (ih 2).2.1 (by omega) '\n' (by rw [← ht]; rfl) rfl
    · rw [collapseNLGo, if_neg hd]
      refine ⟨no3NL_cons_of (ih 0).1 (fun hdd => absurd hdd hd), ?_, ?_⟩
      · intro _ c hc
        simp only [List.head?_cons, Option.some.injEq] at hc
        subst hc
        exact hd
      · intro _ h2
        rw [List.cons_prefix_cons] at h2
        exact hd h2.1.symm

theorem collapseNLGo_eq_self :
    ∀ (l : List Char) (k : Nat), no3NL l →
      (2 ≤ k → ∀ c, l.head? = some c → c ≠ '\n') →
      (k = 1 → ¬(['\n', '\n'] <+: l)) →
      collapseNLGo k l = l
  | [], _, _, _, _ => rfl
  | d :: rest, k, h3, hk2, hk1 => by
    by_cases hd : d = '\n'
    · subst hd
      have hklt : ¬ 2 ≤ k := fun hk => hk2 hk '\n' rfl rfl
      rw [collapseNLGo, if_pos rfl, if_neg hklt]
      congr 1
      refine collapseNLGo_eq_self rest (k + 1) (no3NL_of_cons h3) ?_ ?_
      · intro hk c hc hcn
        subst hcn
        have hk1' : k = 1 := by omega
        subst hk1'
        rcases rest with _ | ⟨e, t⟩
        · simp at hc
        · simp only [List.head?_cons, Option.some.injEq] at hc
          subst hc
          exact hk1 rfl ⟨t, rfl⟩
      · intro hkk h2
        obtain ⟨t2, ht2⟩ := h2
        apply h3
        apply List.IsPrefix.isInfix
        exact ⟨t2, by rw [← ht2]; rfl⟩
    · rw [collapseNLGo, if_neg hd]
      congr 1
      exact collapseNLGo_eq_self rest 0 (no3NL_of_cons h3) (by omega) (by omega)

theorem collapseNLGo_chain :
    ∀ (l : List Char) (k : Nat), List.Chain' noPairHT l →
      List.Chain' noPairHT (collapseNLGo k l)
  | [], _, _ => by simp [collapseNLGo]
  | d :: rest, k, hch => by
    by_cases hd : d = '\n'
    · subst hd
      by_cases hk : 2 ≤ k
      · rw [collapseNLGo, if_pos rfl, if_pos hk]
        exact collapseNLGo_chain rest (k + 1) (List.chain'_cons'.mp hch).2
      · rw [collapseNLGo, if_pos rfl, if_neg hk]
        refine List.chain'_cons'.mpr
          ⟨?_, collapseNLGo_chain rest (k + 1) (List.chain'_cons'.mp hch).2⟩
        intro y _ hcon
        rcases hcon.1 with h | h <;> exact absurd h (by decide)
    · rw [collapseNLGo, if_neg hd]
      refine List.chain'_cons'.mpr
        ⟨?_, collapseNLGo_chain rest 0 (List.chain'_cons'.mp hch).2⟩
      intro y hy hcon
      rcases rest with _ | ⟨e, t⟩
      · rw [show collapseNLGo 0 ([] : List Char) = [] from rfl] at hy
        simp at hy
      · rw [collapseNLGo] at hy
        split_ifs at hy with he h2
        · omega
        · rw [Option.mem_def, List.head?_cons, Option.some.injEq] at hy
          subst hy
          rcases hcon.2 with h | h <;> exact absurd h (by decide)
        · rw [Option.mem_def, List.head?_cons, Option.some.injEq] at hy
          subst hy
          exact (List.chain'_cons'.mp hch).1 e rfl hcon

theorem replCRLF_eq_self :
    ∀ l : List Char, (∀ c ∈ l, c ≠ '\r') → replCRLF l = l := by
  intro l
  induction l using replCRLF.induct with
  | case1 rest ih =>
    intro h
    exact absurd rfl (h '\r' (List.mem_cons_self '\r' ('\n' :: rest)))
  | case2 c rest hne ih =>
    intro h
    have hc : c ≠ '\r' := h c (List.mem_cons_self c rest)
    have hstep : replCRLF (c :: rest) = c :: replCRLF rest := by
      rw [replCRLF.eq_def]
      split
      · rename_i rest2 heq
        rw [List.cons_eq_cons] at heq
        exact absurd heq.1 hc
      · rename_i c2 rest2 _ heq
        rw [List.cons_eq_cons] at heq
        rw [heq.1, heq.2]
      · rename_i heq
        simp at heq
    rw [hstep, ih (fun d hd => h d (List.mem_cons_of_mem c hd))]
  | case3 =>
    intro _
    rfl

theorem map_eq_self {f : Char → Char} :
    ∀ l : List Char, (∀ c ∈ l, f c = c) → l.map f = l
  | [], _ => rfl
  | c :: rest, h => by
    rw [List.map_cons, h c (List.mem_cons_self c rest),
      map_eq_self rest (fun d hd => h d (List.mem_cons_of_mem c hd))]

/-- `str.strip` returns an infix of its input. -/
theorem stripWith_within (p : Char → Bool) (l : List Char) : stripWith p l <:+: l :=
  List.IsInfix.trans ((List.rdropWhile_prefix p _).isInfix)
    ((List.dropWhile_suffix p).isInfix)

theorem no3NL_of_infix {l l2 : List Char} (h : no3NL l) (hi : l2 <:+: l) : no3NL l2 :=
  fun h3 => h (h3.trans hi)

/-- When neither boilerplate marker occurs, stripping the boilerplate of
already-stripped text is the identity. -/
theorem strip_gutenberg_eq_self {y : List Char}
    (hs : searchMarker gutenbergStartPhrase1 gutenbergStartPhrase2 0 y = none)
    (he : searchMarker gutenbergEndPhrase1 gutenbergEndPhrase2 0 y = none)
    (hstr : stripChars y = y) : strip_gutenberg_boilerplate y = y := by
  rw [strip_gutenberg_boilerplate, hs, he]
  exact hstr

/-- On text that is already in normalized form (no carriage returns, no
byte-order marks, no boilerplate marker, stripped, collapsed whitespace and
blank lines), `normalize_text` is the identity. -/
theorem normalize_text_eq_self {y : List Char}
    (hcr : ∀ c ∈ y, c ≠ '\r') (hbom : ∀ c ∈ y, c ≠ '\uFEFF')
    (hs : searchMarker gutenbergStartPhrase1 gutenbergStartPhrase2 0 y = none)
    (he : searchMarker gutenbergEndPhrase1 gutenbergEndPhrase2 0 y = none)
    (hstr : stripChars y = y) (htab : ∀ c ∈ y, c ≠ '\t')
    (hch : List.Chain' noPairHT y) (h3 : no3NL y) :
    normalize_text y = y := by
  rw [normalize_text, replCRLF_eq_self y hcr,
    map_eq_self y (fun c hc => if_neg (hcr c hc)),
    List.filter_eq_self.mpr (fun c hc => by simpa using hbom c hc),
    strip_gutenberg_eq_self hs he hstr,
    show collapseHT y = y from collapseHTGo_eq_self y false htab hch (by simp),
    show collapseNL y = y from collapseNLGo_eq_self y 0 h3 (by omega) (by omega),
    hstr]

/-- The output of `normalize_text` is stripped. -/
theorem normalize_text_stripped (x : List Char) :
    stripChars (normalize_text x) = normalize_text x :=
  stripChars_idem _

/-- The output of `normalize_text` contains no tab. -/
theorem normalize_text_no_tab {x : List Char} {c : Char} (h : c ∈ normalize_text x) :
    c ≠ '\t' := by
  rw [normalize_text] at h
  have h6 := mem_stripWith h
  have h5 := mem_collapseNLGo _ 0 h6
  exact collapseHTGo_no_tab _ false c h5

/-- The output of `normalize_text` has no adjacent horizontal whitespace. -/
theorem normalize_text_chain (x : List Char) :
    List.Chain' noPairHT (normalize_text x) :=
  List.Chain'.infix (collapseNLGo_chain _ 0 (collapseHTGo_chain _ false))
    (stripWith_within isPySpace _)

/-- The output of `normalize_text` has no three consecutive newlines. -/
theorem normalize_text_no3NL (x : List Char) : no3NL (normalize_text x) :=
  no3NL_of_infix (collapseNLGo_inv _ 0).1 (stripWith_within isPySpace _)

/-- C7 (amended): `normalize_text` is idempotent on every input whose
normalized form contains no Gutenberg start or end marker.  (A second
boilerplate marker surviving the first pass is stripped again by the second
pass, as the counterexample shows.) -/
theorem claim_C7 (x : List Char)
    (hs : searchMarker gutenbergStartPhrase1 gutenbergStartPhrase2 0
      (normalize_text x) = none)
    (he : searchMarker gutenbergEndPhrase1 gutenbergEndPhrase2 0
      (normalize_text x) = none) :
    normalize_text (normalize_text x) = normalize_text x :=
  normalize_text_eq_self (fun _ hc => normalize_text_no_cr hc)
    (fun _ hc => normalize_text_no_bom hc) hs he
    (normalize_text_stripped x) (fun _ hc => normalize_text_no_tab hc)
    (normalize_text_chain x) (normalize_text_no3NL x)

theorem claim_C7_witness :
    (searchMarker gutenbergStartPhrase1 gutenbergStartPhrase2 0
        (normalize_text ("hello  world".data)) = none) ∧
      (searchMarker gutenbergEndPhrase1 gutenbergEndPhrase2 0
        (normalize_text ("hello  world".data)) = none) ∧
      normalize_text (normalize_text ("hello  world".data)) =
        normalize_text ("hello  world".data) :=
  ⟨by decide, by decide, claim_C7 ("hello  world".data) (by decide) (by decide)⟩

/-! ### Scoring functions -/

/-- `text.split()`: the maximal runs of non-whitespace characters. -/
def pySplit (cs : List Char) : List (List Char) :=
  runsOf (fun c => !isPySpace c) cs

/-- The characters stripped off a word in `count_syllables`:
`".,;:!?\"'()[]"`. -/
def sylPunct : List Char := ['.', ',', ';', ':', '!', '?', '"', '\'', '(', ')', '[', ']']

/-- The vowel set `aeiouyAEIOUY`. -/
def vowels : List Char := "aeiouyAEIOUY".data

def isVowel (c : Char) : Bool := vowels.contains c

/-- `count_syllables` from the source: count vowel-group starts, discount a
silent trailing lowercase `e` when more than one group was found, floor at
one syllable. -/
def count_syllables (word : List Char) : Nat :=
  let token := stripWith (fun c => sylPunct.contains c) word
  if token = [] then 1
  else
    let count := cwFrom isVowel false token
    let count := if token.getLast? = some 'e' ∧ 1 < count then count - 1 else count
    max 1 count

/-- `sentence_count`: `max(1, len(re.findall(r"[.!?]+", text)))`. -/
def sentence_count (text : List Char) : Nat :=
  max 1 (runsOf isSentChar text).length

/-- `flesch_kincaid_grade`.  The decimal float literals `0.39`, `11.8` and
`15.59` of the source are modelled by the exact rationals they denote. -/
def flesch_kincaid_grade (text : List Char) : ℚ :=
  let words := pySplit text
  if words.length = 0 then 0
  else
    let n_sents := sentence_count text
    let n_syllables := (words.map count_syllables).sum
    (39 : ℚ) / 100 * ((words.length : ℚ) / (n_sents : ℚ)) +
      (59 : ℚ) / 5 * ((n_syllables : ℚ) / (words.length : ℚ)) - (1559 : ℚ) / 100

/-- `pct_polysyllabic`: fraction of `_WORD_RE` tokens with at least three
estimated syllables. -/
def pct_polysyllabic (text : List Char) : ℚ :=
  let words := wordTokens text
  if words = [] then 0
  else ((words.filter (fun w => 3 ≤ count_syllables w)).length : ℚ) / (words.length : ℚ)

/-- `\w` for ASCII text: letters, digits, underscore. -/
def isWordAl (c : Char) : Bool :=
  c.isAlphanum || c == '_'

/-- The character class `[\w'-]` of the factual-burden tokenizer. -/
def isFBClass (c : Char) : Bool :=
  isWordAl c || c == '\'' || c == '-'

/-- Word-boundary test after `k` characters of the class run `run` (the
characters after the run are not in the class, hence not `\w`). -/
def fbBoundary (run : List Char) (k : Nat) : Bool :=
  if k = run.length then isWordAl (run.getD (k - 1) ' ')
  else isWordAl (run.getD (k - 1) ' ') != isWordAl (run.getD k ' ')

/-- Longest `k ≥ 1` with a word boundary after `run.take k` (the greedy
`[\w'-]+` match backtracking for the final `\b`). -/
def fbLongest : Nat → List Char → Option Nat
  | 0, _ => none
  | k + 1, run => if fbBoundary run (k + 1) then some (k + 1) else fbLongest k run

def fbMatchLen (run : List Char) : Option Nat :=
  fbLongest run.length run

/-- `re.findall(r"\b[\w'-]+\b", text)`: scan left to right; at a position
whose character is in the class and preceded by a word boundary, take the
greedy class run, shrink it to the longest prefix ending in a boundary, and
continue after the match (or one character further on failure).  `fuel`
(initially the text length, an upper bound on the number of steps) makes the
recursion structural. -/
def fbScanGo : Nat → Option Char → List Char → List (List Char)
  | 0, _, _ => []
  | _, _, [] => []
  | fuel + 1, prev, c :: rest =>
    let prevW := match prev with
      | some p => isWordAl p
      | none => false
    if isFBClass c && (prevW != isWordAl c) then
      match fbMatchLen (c :: rest.takeWhile isFBClass) with
      | some k =>
        (c :: rest.takeWhile isFBClass).take k ::
          fbScanGo fuel (some ((c :: rest.takeWhile isFBClass).getD (k - 1) ' '))
            (rest.drop (k - 1))
      | none => fbScanGo fuel (some c) rest
    else fbScanGo fuel (some c) rest

def fbScan (text : List Char) : List (List Char) :=
  fbScanGo text.length none text

/-- Python `str.islower()` for ASCII text: at least one cased character and
no uppercase one. -/
def pyIsLower (s : List Char) : Bool :=
  s.any (fun c => c.isLower) && s.all (fun c => !c.isUpper)

/-- `token[:1].isupper()`. -/
def pyIsUpper1 (t : List Char) : Bool :=
  match t with
  | c :: _ => c.isUpper
  | [] => false

/-- `factual_burden_score`: fraction of `\b[\w'-]+\b` tokens that contain a
digit or are capitalized-then-lowercase. -/
def factual_burden_score (text : List Char) : ℚ :=
  let tokens := fbScan text
  if tokens = [] then 0
  else
    let digit_count := (tokens.filter (fun t => t.any (fun ch => ch.isDigit))).length
    let capital_mid := (tokens.filter (fun t => pyIsUpper1 t && pyIsLower (t.drop 1))).length
    ((digit_count : ℚ) + (capital_mid : ℚ)) / (tokens.length : ℚ)

/-- C8: in this embedding all three scoring functions are total Lean
functions, so they are defined on every input string; moreover each returns
0 on text with no words/tokens (in particular on empty text). -/
theorem claim_C8 (text : List Char) :
    (pySplit text = [] → flesch_kincaid_grade text = 0) ∧
      (wordTokens text = [] → pct_polysyllabic text = 0) ∧
      (fbScan text = [] → factual_burden_score text = 0) := by
  refine ⟨?_, ?_, ?_⟩
  · intro h
    rw [flesch_kincaid_grade, h]
    rfl
  · intro h
    rw [pct_polysyllabic, h]
    rfl
  · intro h
    rw [factual_burden_score, h]
    rfl

theorem claim_C8_witness :
    flesch_kincaid_grade [] = 0 ∧ pct_polysyllabic [] = 0 ∧
      factual_burden_score [] = 0 :=
  ⟨(claim_C8 []).1 (by decide), (claim_C8 []).2.1 (by decide),
    (claim_C8 []).2.2 (by decide)⟩

/-! ### Unit records and tier assignment

The record dictionaries built by `build_records` are modelled by the
structure `UnitRecord`; the Python `section` key is spelled `sectionName`
(`section` is reserved in Lean).  The float scores stored in a record are
the exact rationals the pipeline computes; `assign_tiers` reads them back
as (idealized) real numbers. -/

structure UnitRecord where
  title : List Char
  text : List Char
  domain : List Char
  fk_grade : ℚ
  words : Nat
  sentences : Nat
  author : List Char
  work_title : List Char
  work_id : List Char
  unit_type : List Char
  tags : List (List Char)
  sectionName : List Char
  pct_poly : ℚ
  factual_burden : ℚ
deriving DecidableEq

/-- `z_score` from the source, over idealized real-valued floats:
`statistics.mean` is the arithmetic mean and `statistics.stdev` the sample
standard deviation (denominator `n - 1`); the source's `len(values) > 1`
guard returns `0.0` for shorter lists, and a zero standard deviation maps
every value to `0.0`. -/
noncomputable def z_score (values : List ℝ) : List ℝ :=
  if values = [] then []
  else
    let mean := values.sum / values.length
    let stdev := if 1 < values.length then
        Real.sqrt ((values.map (fun v => (v - mean) ^ 2)).sum / ((values.length : ℝ) - 1))
      else 0
    if stdev = 0 then values.map (fun _ => 0)
    else values.map (fun v => (v - mean) / stdev)

/-- C9: `z_score` returns a list of exactly the length of its input, and the
empty list for empty input — the alignment invariant `assign_tiers` relies
on when indexing the three z-score lists by record position. -/
theorem claim_C9 (values : List ℝ) :
    (z_score values).length = values.length ∧ (values = [] → z_score values = []) := by
  constructor
  · rw [z_score]
    split
    · rename_i h
      rw [h]
    · dsimp only
      split <;> (split <;> rw [List.length_map])
  · intro h
    rw [z_score, if_pos h]

theorem claim_C9_witness :
    (z_score []).length = ([] : List ℝ).length ∧ z_score [] = [] :=
  ⟨(claim_C9 []).1, (claim_C9 []).2 rfl⟩

/-- `fk_vals = [float(r["fk_grade"]) for r in records]`. -/
noncomputable def fkVals (records : List UnitRecord) : List ℝ :=
  records.map (fun r => (r.fk_grade : ℝ))

/-- `poly_vals = [float(r["pct_poly"]) for r in records]`. -/
noncomputable def polyVals (records : List UnitRecord) : List ℝ :=
  records.map (fun r => (r.pct_poly : ℝ))

/-- `burden_vals = [float(r["factual_burden"]) for r in records]`. -/
noncomputable def burdenVals (records : List UnitRecord) : List ℝ :=
  records.map (fun r => (r.factual_burden : ℝ))

/-- The composite difficulty of record `i`:
`0.6 * fk_z[i] + 0.3 * poly_z[i] - 0.1 * burden_z[i]` (decimal literals as
exact rationals; `getD i 0` models the in-range indexing `fk_z[i]`). -/
noncomputable def difficulties (records : List UnitRecord) : List ℝ :=
  (List.range records.length).map (fun i =>
    6 / 10 * (z_score (fkVals records)).getD i 0 +
      3 / 10 * (z_score (polyVals records)).getD i 0 -
      1 / 10 * (z_score (burdenVals records)).getD i 0)

/-- `ranked`: each record paired with its difficulty (the `_difficulty`
annotation of the source travels with the record and is popped at the end,
so the pair's first component is the unchanged record). -/
noncomputable def rankedPairs (records : List UnitRecord) : List (UnitRecord × ℝ) :=
  records.zip (difficulties records)

/-- Keys of a `defaultdict(list)` in insertion order: first occurrences,
left to right. -/
def firstKeysGo (seen : List (List Char)) : List (List Char) → List (List Char)
  | [] => []
  | k :: rest =>
    if seen.contains k then firstKeysGo seen rest
    else k :: firstKeysGo (k :: seen) rest

def firstKeys (l : List (List Char)) : List (List Char) :=
  firstKeysGo [] l

/-- `by_author[k]`: the ranked pairs whose record has author `k`, in list
order (the order `defaultdict` appends them). -/
noncomputable def authorRows (records : List UnitRecord) (k : List Char) :
    List (UnitRecord × ℝ) :=
  (rankedPairs records).filter (fun p => p.1.author = k)

/-- `author_rows.sort(key=lambda r: r["_difficulty"])`: Python's stable
ascending sort, modelled by insertion sort on the difficulty component. -/
noncomputable def sortRows (rows : List (UnitRecord × ℝ)) : List (UnitRecord × ℝ) :=
  List.insertionSort (fun p q => p.2 ≤ q.2) rows

/-- One author group split into its (easy, medium, hard) slices: singleton
groups go entirely to hard, pairs to medium/hard, larger groups by the
`n // 3` and `2 * n // 3` cuts, with the second cut at least `cut1 + 1` and
clamped to `n - 1`. -/
noncomputable def tierSlices (rows : List (UnitRecord × ℝ)) :
    List (UnitRecord × ℝ) × List (UnitRecord × ℝ) × List (UnitRecord × ℝ) :=
  let sorted := sortRows rows
  let n := sorted.length
  if n = 1 then ([], [], sorted)
  else if n = 2 then ([], sorted.take 1, sorted.drop 1)
  else
    let cut1 := max 1 (n / 3)
    let cut2 := max (cut1 + 1) (2 * n / 3)
    let cut3 := if n ≤ cut2 then n - 1 else cut2
    (sorted.take cut1, (sorted.take cut3).drop cut1, sorted.drop cut3)

/-- The author groups, in first-occurrence key order. -/
noncomputable def authorGroups (records : List UnitRecord) :
    List (List (UnitRecord × ℝ)) :=
  (firstKeys ((rankedPairs records).map (fun p => p.1.author))).map
    (fun k => authorRows records k)

/-- `easy` before the `_difficulty` pop: concatenation of the easy slices of
the author groups. -/
noncomputable def easyPairs (records : List UnitRecord) : List (UnitRecord × ℝ) :=
  ((authorGroups records).map (fun g => (tierSlices g).1)).flatten

noncomputable def mediumPairs (records : List UnitRecord) : List (UnitRecord × ℝ) :=
  ((authorGroups records).map (fun g => (tierSlices g).2.1)).flatten

noncomputable def hardPairs (records : List UnitRecord) : List (UnitRecord × ℝ) :=
  ((authorGroups records).map (fun g => (tierSlices g).2.2)).flatten

structure Tiered where
  easy : List UnitRecord
  medium : List UnitRecord
  hard : List UnitRecord
deriving DecidableEq

/-- `assign_tiers`: empty input gives three empty tiers; fewer than three
records all land in hard; otherwise the per-author slices are concatenated
and the `_difficulty` annotation is popped (projecting the pairs back to
their records). -/
noncomputable def assign_tiers (records : List UnitRecord) : Tiered :=
  if records = [] then ⟨[], [], []⟩
  else if records.length < 3 then ⟨[], [], records⟩
  else
    ⟨(easyPairs records).map Prod.fst,
      (mediumPairs records).map Prod.fst,
      (hardPairs records).map Prod.fst⟩

instance : IsTotal (UnitRecord × ℝ) (fun p q => p.2 ≤ q.2) :=
  ⟨fun a b => le_total a.2 b.2⟩

instance : IsTrans (UnitRecord × ℝ) (fun p q => p.2 ≤ q.2) :=
  ⟨fun a b c hab hbc => le_trans hab hbc⟩

instance : IsAntisymm (UnitRecord × ℝ) (fun p q => p.2 < q.2) :=
  ⟨fun a b h h2 => absurd (lt_trans h h2) (lt_irrefl _)⟩

/-- Splitting a list at positions `c1 ≤ c3` into three slices recovers it. -/
theorem take_drop_decomp {α : Type} (l : List α) {c1 c3 : Nat} (h : c1 ≤ c3) :
    (l.take c1 ++ (l.take c3).drop c1) ++ l.drop c3 = l := by
  have h1 : l.take c1 = (l.take c3).take c1 := by
    rw [List.take_take, Nat.min_eq_left h]
  rw [h1, List.take_append_drop, List.take_append_drop]

/-- The three slices of an author group concatenate to the sorted group. -/
theorem tierSlices_append (rows : List (UnitRecord × ℝ)) :
    (tierSlices rows).1 ++ (tierSlices rows).2.1 ++ (tierSlices rows).2.2 =
      sortRows rows := by
  rw [tierSlices]
  dsimp only
  split
  · simp
  · split
    · simpa using List.take_append_drop 1 (sortRows rows)
    · rename_i h1 h2
      rcases Nat.eq_zero_or_pos (sortRows rows).length with h0 | hpos
      · have hnil : sortRows rows = [] := List.length_eq_zero.mp h0
        simp [hnil]
      · have h3 : 3 ≤ (sortRows rows).length := by omega
        apply take_drop_decomp
        split <;> omega

/-- A key-indexed family of filters, flattened over a duplicate-free list of
keys covering every element, is a permutation of the original list. -/
theorem perm_flatten_filter {α K : Type} [DecidableEq K] (key : α → K) :
    ∀ (keys : List K) (l : List α), keys.Nodup → (∀ x ∈ l, key x ∈ keys) →
      ((keys.map (fun k => l.filter (fun x => key x = k))).flatten).Perm l := by
  intro keys
  induction keys with
  | nil =>
    intro l _ hall
    cases l with
    | nil => simp
    | cons x t => exact absurd (hall x (List.mem_cons_self x t)) (List.not_mem_nil _)
  | cons k ks ih =>
    intro l hnd hall
    rw [List.map_cons, List.flatten_cons]
    have hperm := List.filter_append_perm (fun x => decide (key x = k)) l
    have hsub : ∀ x ∈ l.filter (fun x => !(decide (key x = k))), key x ∈ ks := by
      intro x hx
      have h1 := List.mem_filter.mp hx
      have h3 : ¬ key x = k := by simpa using h1.2
      rcases List.mem_cons.mp (hall x h1.1) with h | h
      · exact absurd h h3
      · exact h
    have hmap : ks.map (fun j => l.filter (fun x => decide (key x = j))) =
        ks.map (fun j => (l.filter (fun x => !(decide (key x = k)))).filter
          (fun x => decide (key x = j))) := by
      apply List.map_congr_left
      intro j hj
      rw [List.filter_filter]
      apply List.filter_congr
      intro x _
      by_cases h : key x = j
      · have hjk : ¬ j = k := by
          intro he
          exact (List.nodup_cons.mp hnd).1 (he ▸ hj)
        simp [h, hjk]
      · simp [h]
    rw [hmap]
    refine List.Perm.trans ?_ hperm
    apply List.Perm.append_left
    exact ih (l.filter (fun x => !(decide (key x = k)))) (List.nodup_cons.mp hnd).2 hsub

/-- Membership in `firstKeysGo`: present in the remainder and not yet seen. -/
theorem mem_firstKeysGo (k : List Char) :
    ∀ (l seen : List (List Char)), k ∈ firstKeysGo seen l ↔ k ∈ l ∧ k ∉ seen := by
  intro l
  induction l with
  | nil => intro seen; simp [firstKeysGo]
  | cons x rest ih =>
    intro seen
    rw [firstKeysGo]
    by_cases hx : seen.contains x
    · rw [if_pos hx, ih]
      have hxs : x ∈ seen := by simpa using hx
      constructor
      · exact fun ⟨h1, h2⟩ => ⟨List.mem_cons_of_mem x h1, h2⟩
      · rintro ⟨h1, h2⟩
        rcases List.mem_cons.mp h1 with h | h
        · exact absurd (h ▸ hxs) h2
        · exact ⟨h, h2⟩
    · rw [if_neg hx]
      have hxs : x ∉ seen := by simpa using hx
      rw [List.mem_cons, ih]
      constructor
      · rintro (h | ⟨h1, h2⟩)
        · exact ⟨h ▸ List.mem_cons_self x rest, h ▸ hxs⟩
        · exact ⟨List.mem_cons_of_mem x h1, fun hc => h2 (List.mem_cons_of_mem x hc)⟩
      · rintro ⟨h1, h2⟩
        rcases List.mem_cons.mp h1 with h | h
        · exact Or.inl h
        · by_cases hk : k = x
          · exact Or.inl hk
          · exact Or.inr ⟨h, fun hc => by
              rcases List.mem_cons.mp hc with h3 | h3
              · exact hk h3
              · exact h2 h3⟩

theorem nodup_firstKeysGo :
    ∀ (l seen : List (List Char)), (firstKeysGo seen l).Nodup := by
  intro l
  induction l with
  | nil => intro seen; simp [firstKeysGo]
  | cons x rest ih =>
    intro seen
    rw [firstKeysGo]
    split
    · exact ih seen
    · refine List.nodup_cons.mpr ⟨?_, ih (x :: seen)⟩
      intro hc
      exact ((mem_firstKeysGo x rest (x :: seen)).mp hc).2 (List.mem_cons_self x seen)

theorem mem_firstKeys {k : List Char} {l : List (List Char)} :
    k ∈ firstKeys l ↔ k ∈ l := by
  rw [firstKeys, mem_firstKeysGo]
  simp

theorem nodup_firstKeys (l : List (List Char)) : (firstKeys l).Nodup :=
  nodup_firstKeysGo l []

theorem difficulties_length (records : List UnitRecord) :
    (difficulties records).length = records.length := by
  rw [difficulties, List.length_map, List.length_range]

/-- Dropping the difficulty annotations recovers the record list. -/
theorem rankedPairs_fst (records : List UnitRecord) :
    (rankedPairs records).map Prod.fst = records :=
  List.map_fst_zip _ _ (by rw [difficulties_length])

theorem flatten_map_perm {α β : Type} (gs : List α) (f g : α → List β)
    (h : ∀ x ∈ gs, (f x).Perm (g x)) :
    ((gs.map f).flatten).Perm ((gs.map g).flatten) := by
  induction gs with
  | nil => simp
  | cons a t ih =>
    simp only [List.map_cons, List.flatten_cons]
    exact (h a (List.mem_cons_self a t)).append
      (ih (fun x hx => h x (List.mem_cons_of_mem a hx)))

/-- The flattened author groups are a permutation of the ranked pairs. -/
theorem perm_authorGroups (records : List UnitRecord) :
    ((authorGroups records).flatten).Perm (rankedPairs records) := by
  rw [authorGroups]
  have := perm_flatten_filter (fun p : UnitRecord × ℝ => p.1.author)
    (firstKeys ((rankedPairs records).map (fun p => p.1.author))) (rankedPairs records)
    (nodup_firstKeys _)
    (fun x hx => mem_firstKeys.mpr (List.mem_map_of_mem (fun p => p.1.author) hx))
  exact this

/-- The three tier pair lists together are a permutation of the ranked
pairs. -/
theorem perm_tierPairs (records : List UnitRecord) :
    (easyPairs records ++ mediumPairs records ++ hardPairs records).Perm
      (rankedPairs records) := by
  rw [easyPairs, mediumPairs, hardPairs]
  set gs := authorGroups records with hgs
  refine List.Perm.trans ?_ (List.Perm.trans (flatten_map_perm gs
    (fun g => (tierSlices g).1 ++ (tierSlices g).2.1 ++ (tierSlices g).2.2)
    id
    (fun g _ => by
      dsimp only [id]
      rw [tierSlices_append]
      exact List.perm_insertionSort _ g)) ?_)
  · have e1 := List.flatMap_append_perm gs (fun g => (tierSlices g).1)
      (fun g => (tierSlices g).2.1)
    have e2 := List.flatMap_append_perm gs
      (fun g => (tierSlices g).1 ++ (tierSlices g).2.1) (fun g => (tierSlices g).2.2)
    simp only [List.flatMap_def] at e1 e2
    exact List.Perm.trans (e1.append_right _) e2
  · rw [List.map_id]
    exact perm_authorGroups records

/-- C2 (amended): the three tiers of `assign_tiers` are, together, a
permutation of the input (no duplication, no omission, so their set union is
the input set); when the input has no duplicate records they are pairwise
disjoint; and an input with fewer than 3 records puts everything in hard
with easy and medium empty.  (On inputs with duplicate records — possible
when the works list repeats a work — one copy can land in two different
tiers, so disjointness needs the no-duplicates hypothesis; the recorded
counterexample shows this.) -/
theorem claim_C2 (records : List UnitRecord) :
    ((assign_tiers records).easy ++ (assign_tiers records).medium ++
        (assign_tiers records).hard).Perm records ∧
      (records.Nodup →
        (∀ r ∈ (assign_tiers records).easy,
            r ∉ (assign_tiers records).medium ∧ r ∉ (assign_tiers records).hard) ∧
          ∀ r ∈ (assign_tiers records).medium, r ∉ (assign_tiers records).hard) ∧
      (records.length < 3 →
        (assign_tiers records).easy = [] ∧ (assign_tiers records).medium = [] ∧
          (assign_tiers records).hard = records) := by
  have hperm : ((assign_tiers records).easy ++ (assign_tiers records).medium ++
      (assign_tiers records).hard).Perm records := by
    by_cases he : records = []
    · rw [assign_tiers, if_pos he, he]
      exact List.Perm.refl _
    · by_cases hl : records.length < 3
      · rw [assign_tiers, if_neg he, if_pos hl]
        exact List.Perm.refl _
      · rw [assign_tiers, if_neg he, if_neg hl]
        dsimp only
        rw [← List.map_append, ← List.map_append]
        have := (perm_tierPairs records).map Prod.fst
        rw [rankedPairs_fst] at this
        exact this
  refine ⟨hperm, ?_, ?_⟩
  · intro hnd
    have hnd2 : ((assign_tiers records).easy ++ (assign_tiers records).medium ++
        (assign_tiers records).hard).Nodup := hperm.nodup_iff.mpr hnd
    rw [List.nodup_append] at hnd2
    have hem := List.nodup_append.mp hnd2.1
    refine ⟨fun r hr => ⟨fun hm => hem.2.2 hr hm, fun hh =>
      hnd2.2.2 (List.mem_append_left _ hr) hh⟩, fun r hr hh =>
      hnd2.2.2 (List.mem_append_right _ hr) hh⟩
  · intro h3
    by_cases he : records = []
    · rw [assign_tiers, if_pos he, he]
      exact ⟨rfl, rfl, rfl⟩
    · rw [assign_tiers, if_neg he, if_pos h3]
      exact ⟨rfl, rfl, rfl⟩

/-! ### Concrete records for counterexamples and witnesses -/

/-- A minimal record with the given title, author and Flesch-Kincaid grade;
the remaining fields are empty or zero. -/
def mkRec (ttl auth : List Char) (fk : ℚ) : UnitRecord :=
  { title := ttl, text := [], domain := [], fk_grade := fk, words := 0,
    sentences := 0, author := auth, work_title := [], work_id := [],
    unit_type := [], tags := [], sectionName := [], pct_poly := 0,
    factual_burden := 0 }

def rA : UnitRecord := mkRec "A".data "x".data 0
def rB : UnitRecord := mkRec "B".data "x".data 0
def rC : UnitRecord := mkRec "C".data "x".data 0
def r1 : UnitRecord := mkRec "w1".data "x".data 1
def r2 : UnitRecord := mkRec "w2".data "x".data 2
def r3 : UnitRecord := mkRec "w3".data "x".data 3

def trioAAA : List UnitRecord := [rA, rA, rA]
def trio123 : List UnitRecord := [r1, r2, r3]
def duo12 : List UnitRecord := [r1, r2]

/-- `z_score` of a constant list is all zeros (zero standard deviation). -/
theorem z_score_all_eq (c : ℝ) {l : List ℝ} (h : ∀ x ∈ l, x = c) :
    z_score l = l.map (fun _ => 0) := by
  by_cases hne : l = []
  · rw [hne, z_score]
    rfl
  · have hlen : (l.length : ℝ) ≠ 0 := by
      have := List.length_pos.mpr hne
      positivity
    have hmean : l.sum / (l.length : ℝ) = c := by
      rw [List.sum_eq_card_nsmul l c h, nsmul_eq_mul]
      field_simp
    have hdev : (l.map (fun v => (v - l.sum / (l.length : ℝ)) ^ 2)).sum = 0 := by
      rw [hmean]
      have hmap : l.map (fun v => (v - c) ^ 2) = l.map (fun _ => (0:ℝ)) :=
        List.map_congr_left (fun x hx => by rw [h x hx]; ring)
      rw [hmap]
      simp
    simp only [z_score, if_neg hne]
    rw [hdev, zero_div, Real.sqrt_zero, ite_self, if_pos rfl]

/-- `getD _ 0` of an all-zero list is `0` at every index. -/
theorem getD_map_zero {α : Type} (L : List α) (i : Nat) :
    (L.map (fun _ => (0:ℝ))).getD i 0 = 0 := by
  rcases Nat.lt_or_ge i L.length with h | h
  · rw [List.getD_eq_getElem _ _ (by simpa using h)]
    simp
  · rw [List.getD_eq_default _ _ (by simpa using h)]

/-- When all three scores are constant across the records, every composite
difficulty is zero. -/
theorem difficulties_all_eq (cf cp cb : ℚ) {records : List UnitRecord}
    (hf : ∀ r ∈ records, r.fk_grade = cf) (hp : ∀ r ∈ records, r.pct_poly = cp)
    (hb : ∀ r ∈ records, r.factual_burden = cb) :
    difficulties records = records.map (fun _ => 0) := by
  have h1 : z_score (fkVals records) = (fkVals records).map (fun _ => 0) :=
    z_score_all_eq ((cf : ℚ) : ℝ) (fun x hx => by
      obtain ⟨r, hr, rfl⟩ := List.mem_map.mp hx
      rw [hf r hr])
  have h2 : z_score (polyVals records) = (polyVals records).map (fun _ => 0) :=
    z_score_all_eq ((cp : ℚ) : ℝ) (fun x hx => by
      obtain ⟨r, hr, rfl⟩ := List.mem_map.mp hx
      rw [hp r hr])
  have h3 : z_score (burdenVals records) = (burdenVals records).map (fun _ => 0) :=
    z_score_all_eq ((cb : ℚ) : ℝ) (fun x hx => by
      obtain ⟨r, hr, rfl⟩ := List.mem_map.mp hx
      rw [hb r hr])
  rw [difficulties, h1, h2, h3]
  have hcongr : (List.range records.length).map (fun i =>
      6 / 10 * ((fkVals records).map (fun _ => (0:ℝ))).getD i 0 +
        3 / 10 * ((polyVals records).map (fun _ => (0:ℝ))).getD i 0 -
        1 / 10 * ((burdenVals records).map (fun _ => (0:ℝ))).getD i 0) =
      (List.range records.length).map (fun _ => (0:ℝ)) :=
    List.map_congr_left (fun i _ => by
      rw [getD_map_zero, getD_map_zero, getD_map_zero]
      ring)
  rw [hcongr]
  rw [List.map_const', List.map_const', List.length_range]

theorem difficulties_trioAAA : difficulties trioAAA = [0, 0, 0] := by
  rw [difficulties_all_eq 0 0 0]
  · rfl
  all_goals intro r hr
  all_goals rcases List.mem_cons.mp hr with h | h
  all_goals first
    | (rw [h]; rfl)
    | (rcases List.mem_cons.mp h with h2 | h2
       · rw [h2]; rfl
       · rw [List.mem_singleton.mp h2]; rfl)

theorem rankedPairs_trioAAA :
    rankedPairs trioAAA = [(rA, 0), (rA, 0), (rA, 0)] := by
  rw [rankedPairs, difficulties_trioAAA]
  rfl

theorem authorGroups_trioAAA :
    authorGroups trioAAA = [[(rA, 0), (rA, 0), (rA, 0)]] := by
  have h1 : (rankedPairs trioAAA).map (fun p => p.1.author) =
      ["x".data, "x".data, "x".data] := by
    rw [rankedPairs_trioAAA]
    rfl
  rw [authorGroups, h1]
  have h2 : firstKeys ["x".data, "x".data, "x".data] = ["x".data] := by decide
  rw [h2, List.map_cons, List.map_nil, authorRows, rankedPairs_trioAAA]
  rfl

theorem sortRows_trioAAA :
    sortRows [(rA, (0:ℝ)), (rA, 0), (rA, 0)] = [(rA, 0), (rA, 0), (rA, 0)] := by
  simp [sortRows, List.insertionSort, List.orderedInsert]

theorem tierSlices_trioAAA :
    tierSlices [(rA, (0:ℝ)), (rA, 0), (rA, 0)] = ([(rA, 0)], [(rA, 0)], [(rA, 0)]) := by
  simp only [tierSlices, sortRows_trioAAA]
  norm_num

theorem assign_tiers_trioAAA : assign_tiers trioAAA = ⟨[rA], [rA], [rA]⟩ := by
  rw [assign_tiers, if_neg (by simp [trioAAA]), if_neg (by norm_num [trioAAA])]
  have he : easyPairs trioAAA = [(rA, 0)] := by
    rw [easyPairs, authorGroups_trioAAA, List.map_cons, List.map_nil, tierSlices_trioAAA]
    rfl
  have hm : mediumPairs trioAAA = [(rA, 0)] := by
    rw [mediumPairs, authorGroups_trioAAA, List.map_cons, List.map_nil, tierSlices_trioAAA]
    rfl
  have hh : hardPairs trioAAA = [(rA, 0)] := by
    rw [hardPairs, authorGroups_trioAAA, List.map_cons, List.map_nil, tierSlices_trioAAA]
    rfl
  rw [he, hm, hh]
  rfl

/-- C2 counterexample: on an input with three identical records (the same
unit listed three times) the tiers are not pairwise disjoint — the record
is in easy and in medium at once. -/
theorem claim_C2_counterexample :
    3 ≤ trioAAA.length ∧
      ∃ r, r ∈ (assign_tiers trioAAA).easy ∧ r ∈ (assign_tiers trioAAA).medium := by
  refine ⟨by decide, rA, ?_, ?_⟩
  · rw [assign_tiers_trioAAA]
    exact List.mem_singleton_self rA
  · rw [assign_tiers_trioAAA]
    exact List.mem_singleton_self rA

theorem claim_C2_witness :
    duo12.Nodup ∧ duo12.length < 3 ∧
      ((assign_tiers duo12).easy ++ (assign_tiers duo12).medium ++
          (assign_tiers duo12).hard).Perm duo12 ∧
      ((∀ r ∈ (assign_tiers duo12).easy,
          r ∉ (assign_tiers duo12).medium ∧ r ∉ (assign_tiers duo12).hard) ∧
        ∀ r ∈ (assign_tiers duo12).medium, r ∉ (assign_tiers duo12).hard) ∧
      ((assign_tiers duo12).easy = [] ∧ (assign_tiers duo12).medium = [] ∧
        (assign_tiers duo12).hard = duo12) := by
  have hnd : duo12.Nodup := by
    refine List.nodup_cons.mpr ⟨?_, List.nodup_singleton _⟩
    intro h
    exact absurd (congrArg UnitRecord.title (List.mem_singleton.mp h)) (by decide)
  exact ⟨hnd, by decide, (claim_C2 duo12).1, (claim_C2 duo12).2.1 hnd,
    (claim_C2 duo12).2.2 (by decide)⟩

/-! ### C4: the z-score inside `assign_tiers` -/

/-- Arithmetic mean (spec side). -/
noncomputable def specMean (values : List ℝ) : ℝ := values.sum / values.length

/-- Sample standard deviation, denominator `n - 1` (what `statistics.stdev`
computes). -/
noncomputable def sampleStdev (values : List ℝ) : ℝ :=
  Real.sqrt ((values.map (fun v => (v - specMean values) ^ 2)).sum /
    ((values.length : ℝ) - 1))

/-- Population standard deviation, denominator `n` (what the spec's words
describe). -/
noncomputable def popStdev (values : List ℝ) : ℝ :=
  Real.sqrt ((values.map (fun v => (v - specMean values) ^ 2)).sum /
    (values.length : ℝ))

/-- Per-index sample z-score with the stdev-0 convention, written
independently of `z_score`. -/
noncomputable def zSampleAt (values : List ℝ) (i : Nat) : ℝ :=
  if sampleStdev values = 0 then 0
  else (values.getD i 0 - specMean values) / sampleStdev values

/-- Per-index population z-score with the stdev-0 convention (the spec's
formula). -/
noncomputable def zPopAt (values : List ℝ) (i : Nat) : ℝ :=
  if popStdev values = 0 then 0
  else (values.getD i 0 - specMean values) / popStdev values

/-- For a list with at least two entries, the code's `z_score` agrees
pointwise with the sample z-score. -/
theorem z_score_getD_eq (L : List ℝ) (h2 : 2 ≤ L.length) {i : Nat}
    (hi : i < L.length) :
    (z_score L).getD i 0 = zSampleAt L i := by
  have hne : L ≠ [] := by
    intro h
    rw [h] at h2
    exact absurd h2 (by decide)
  have hlt : 1 < L.length := by omega
  have hs : sampleStdev L =
      Real.sqrt ((L.map (fun v => (v - L.sum / (L.length : ℝ)) ^ 2)).sum /
        ((L.length : ℝ) - 1)) := by
    rw [sampleStdev, specMean]
  simp only [z_score, if_neg hne, if_pos hlt]
  rw [← hs, zSampleAt]
  by_cases h0 : sampleStdev L = 0
  · rw [if_pos h0, if_pos h0]
    exact getD_map_zero L i
  · rw [if_neg h0, if_neg h0]
    rw [List.getD_eq_getElem _ _ (by simpa using hi), List.getD_eq_getElem _ _ hi]
    rw [List.getElem_map]
    rw [specMean]

/-- C4 (amended): for at least 3 records, the composite difficulty of record
`i` is `0.6 * z(grade) + 0.3 * z(poly) - 0.1 * z(burden)` where `z` is the
SAMPLE z-score (mean over all units, standard deviation with denominator
`n - 1`, a zero standard deviation giving z-score 0 for every element).
The spec's population z-score (denominator `n`) does not match the code;
see the recorded counterexample. -/
theorem claim_C4 (records : List UnitRecord) (h3 : 3 ≤ records.length)
    {i : Nat} (hi : i < records.length) :
    (difficulties records).getD i 0 =
      6 / 10 * zSampleAt (fkVals records) i + 3 / 10 * zSampleAt (polyVals records) i -
        1 / 10 * zSampleAt (burdenVals records) i := by
  rw [difficulties]
  rw [List.getD_eq_getElem _ _ (by simpa using hi)]
  simp only [List.getElem_map, List.getElem_range]
  rw [z_score_getD_eq (fkVals records) (by rw [fkVals, List.length_map]; omega)
      (by rw [fkVals, List.length_map]; exact hi),
    z_score_getD_eq (polyVals records) (by rw [polyVals, List.length_map]; omega)
      (by rw [polyVals, List.length_map]; exact hi),
    z_score_getD_eq (burdenVals records) (by rw [burdenVals, List.length_map]; omega)
      (by rw [burdenVals, List.length_map]; exact hi)]

theorem claim_C4_witness :
    3 ≤ trio123.length ∧ 0 < trio123.length ∧
      (difficulties trio123).getD 0 0 =
        6 / 10 * zSampleAt (fkVals trio123) 0 + 3 / 10 * zSampleAt (polyVals trio123) 0 -
          1 / 10 * zSampleAt (burdenVals trio123) 0 :=
  ⟨by decide, by decide, claim_C4 trio123 (by decide) (by decide)⟩

theorem fkVals_trio123 : fkVals trio123 = [1, 2, 3] := by
  rw [fkVals, trio123]
  norm_num [r1, r2, r3, mkRec]

theorem polyVals_trio123 : polyVals trio123 = [0, 0, 0] := by
  rw [polyVals, trio123]
  norm_num [r1, r2, r3, mkRec]

theorem burdenVals_trio123 : burdenVals trio123 = [0, 0, 0] := by
  rw [burdenVals, trio123]
  norm_num [r1, r2, r3, mkRec]

theorem z_score_123 : z_score [(1:ℝ), 2, 3] = [-1, 0, 1] := by
  have hne : ([(1:ℝ), 2, 3]) ≠ [] := by simp
  norm_num [z_score, if_neg hne, Real.sqrt_one]

theorem z_score_000 : z_score [(0:ℝ), 0, 0] = [0, 0, 0] := by
  rw [z_score_all_eq 0 (by norm_num)]
  rfl

theorem difficulties_trio123 : difficulties trio123 = [-(3 / 5), 0, 3 / 5] := by
  rw [difficulties, fkVals_trio123, polyVals_trio123, burdenVals_trio123,
    z_score_123, z_score_000]
  have hlen : trio123.length = 3 := rfl
  rw [hlen]
  have hr3 : List.range 3 = [0, 1, 2] := by decide
  rw [hr3]
  norm_num [List.getD_cons_zero, List.getD_cons_succ]

/-- C4 counterexample: with grades `1, 2, 3` (and the other scores
constant), the code's first difficulty is `-3/5` (sample standard deviation
`1`), while the population z-score formula of the spec gives
`0.6 * (-1/√(2/3)) ≠ -3/5`. -/
theorem claim_C4_counterexample :
    3 ≤ trio123.length ∧
      (difficulties trio123).getD 0 0 ≠
        6 / 10 * zPopAt (fkVals trio123) 0 + 3 / 10 * zPopAt (polyVals trio123) 0 -
          1 / 10 * zPopAt (burdenVals trio123) 0 := by
  refine ⟨by decide, ?_⟩
  rw [difficulties_trio123, fkVals_trio123, polyVals_trio123, burdenVals_trio123]
  have hmean : specMean [(1:ℝ), 2, 3] = 2 := by
    rw [specMean]
    norm_num
  have hs : popStdev [(1:ℝ), 2, 3] = Real.sqrt (2 / 3) := by
    rw [popStdev, hmean]
    norm_num
  have hspos : (0:ℝ) < Real.sqrt (2 / 3) := Real.sqrt_pos.mpr (by norm_num)
  have hzp : zPopAt [(1:ℝ), 2, 3] 0 = -1 / Real.sqrt (2 / 3) := by
    rw [zPopAt, hs, if_neg (ne_of_gt hspos), hmean]
    norm_num [List.getD_cons_zero]
  have hz0 : zPopAt [(0:ℝ), 0, 0] 0 = 0 := by
    have hm0 : specMean [(0:ℝ), 0, 0] = 0 := by
      rw [specMean]
      norm_num
    have hs0 : popStdev [(0:ℝ), 0, 0] = 0 := by
      rw [popStdev, hm0]
      norm_num
    rw [zPopAt, if_pos hs0]
  rw [hzp, hz0]
  rw [List.getD_cons_zero]
  intro h
  have hs1 : Real.sqrt (2 / 3) = 1 := by
    set s := Real.sqrt (2 / 3) with hsdef
    have hsne : s ≠ 0 := ne_of_gt hspos
    have hrw : 6 / 10 * (-1 / s) + 3 / 10 * 0 - 1 / 10 * 0 = -(3 / 5 : ℝ) * s⁻¹ := by
      ring
    rw [hrw] at h
    have h2 : -(3 / 5 : ℝ) * s = -(3 / 5) := by
      calc -(3 / 5 : ℝ) * s = -(3 / 5) * s⁻¹ * s := by rw [← h]
        _ = -(3 / 5) * (s⁻¹ * s) := by ring
        _ = -(3 / 5) := by rw [inv_mul_cancel₀ hsne, mul_one]
    linarith
  have h23 := Real.sqrt_eq_one.mp hs1
  norm_num at h23

/-! ### C5: per-author monotonicity of the tier slices -/

theorem sortRows_sorted (rows : List (UnitRecord × ℝ)) :
    List.Sorted (fun p q : UnitRecord × ℝ => p.2 ≤ q.2) (sortRows rows) :=
  List.sorted_insertionSort _ rows

/-- In a sorted list, every element of an initial slice is at most every
element of the corresponding final slice. -/
theorem sorted_take_drop {s : List (UnitRecord × ℝ)}
    (hsort : List.Sorted (fun p q : UnitRecord × ℝ => p.2 ≤ q.2) s)
    (c : Nat) {p q : UnitRecord × ℝ}
    (hp : p ∈ s.take c) (hq : q ∈ s.drop c) : p.2 ≤ q.2 := by
  have hd := List.take_append_drop c s
  have hpw : List.Pairwise (fun p q : UnitRecord × ℝ => p.2 ≤ q.2)
      (s.take c ++ s.drop c) := by
    rw [hd]
    exact hsort
  exact (List.pairwise_append.mp hpw).2.2 p hp q hq

/-- Difficulties do not decrease from the easy slice to the medium slice and
from the medium slice to the hard slice of one sorted author group. -/
theorem tierSlices_order (g : List (UnitRecord × ℝ)) (p q : UnitRecord × ℝ) :
    (p ∈ (tierSlices g).1 → q ∈ (tierSlices g).2.1 → p.2 ≤ q.2) ∧
      (p ∈ (tierSlices g).2.1 → q ∈ (tierSlices g).2.2 → p.2 ≤ q.2) := by
  have hsort := sortRows_sorted g
  simp only [tierSlices]
  by_cases h1 : (sortRows g).length = 1
  · rw [if_pos h1]
    exact ⟨fun hp _ => absurd hp (List.not_mem_nil p),
      fun hp _ => absurd hp (List.not_mem_nil p)⟩
  · rw [if_neg h1]
    by_cases h2 : (sortRows g).length = 2
    · rw [if_pos h2]
      refine ⟨fun hp _ => absurd hp (List.not_mem_nil p), fun hp hq => ?_⟩
      exact sorted_take_drop hsort 1 hp hq
    · rw [if_neg h2]
      dsimp only
      refine ⟨fun hp hq => ?_, fun hp hq => ?_⟩
      · rw [List.drop_take] at hq
        exact sorted_take_drop hsort _ hp (List.take_subset _ _ hq)
      · exact sorted_take_drop hsort _ (List.drop_subset _ _ hp) hq

/-- Every element of a tier slice belongs to the sorted group. -/
theorem mem_tierSlices {g : List (UnitRecord × ℝ)} {p : UnitRecord × ℝ}
    (hp : p ∈ (tierSlices g).1 ∨ p ∈ (tierSlices g).2.1 ∨ p ∈ (tierSlices g).2.2) :
    p ∈ sortRows g := by
  have happ := tierSlices_append g
  rw [← happ]
  rcases hp with h | h | h
  · exact List.mem_append_left _ (List.mem_append_left _ h)
  · exact List.mem_append_left _ (List.mem_append_right _ h)
  · exact List.mem_append_right _ h

theorem easyPairs_mem {records : List UnitRecord} {p : UnitRecord × ℝ}
    (hp : p ∈ easyPairs records) :
    ∃ k, p ∈ (tierSlices (authorRows records k)).1 ∧ p.1.author = k := by
  rw [easyPairs] at hp
  obtain ⟨l, hl, hpl⟩ := List.mem_flatten.mp hp
  obtain ⟨g, hgmem, rfl⟩ := List.mem_map.mp hl
  rw [authorGroups] at hgmem
  obtain ⟨k, _, rfl⟩ := List.mem_map.mp hgmem
  refine ⟨k, hpl, ?_⟩
  have hpg : p ∈ authorRows records k :=
    (List.perm_insertionSort _ _).subset (mem_tierSlices (Or.inl hpl))
  simpa using (List.mem_filter.mp hpg).2

theorem mediumPairs_mem {records : List UnitRecord} {p : UnitRecord × ℝ}
    (hp : p ∈ mediumPairs records) :
    ∃ k, p ∈ (tierSlices (authorRows records k)).2.1 ∧ p.1.author = k := by
  rw [mediumPairs] at hp
  obtain ⟨l, hl, hpl⟩ := List.mem_flatten.mp hp
  obtain ⟨g, hgmem, rfl⟩ := List.mem_map.mp hl
  rw [authorGroups] at hgmem
  obtain ⟨k, _, rfl⟩ := List.mem_map.mp hgmem
  refine ⟨k, hpl, ?_⟩
  have hpg : p ∈ authorRows records k :=
    (List.perm_insertionSort _ _).subset (mem_tierSlices (Or.inr (Or.inl hpl)))
  simpa using (List.mem_filter.mp hpg).2

theorem hardPairs_mem {records : List UnitRecord} {p : UnitRecord × ℝ}
    (hp : p ∈ hardPairs records) :
    ∃ k, p ∈ (tierSlices (authorRows records k)).2.2 ∧ p.1.author = k := by
  rw [hardPairs] at hp
  obtain ⟨l, hl, hpl⟩ := List.mem_flatten.mp hp
  obtain ⟨g, hgmem, rfl⟩ := List.mem_map.mp hl
  rw [authorGroups] at hgmem
  obtain ⟨k, _, rfl⟩ := List.mem_map.mp hgmem
  refine ⟨k, hpl, ?_⟩
  have hpg : p ∈ authorRows records k :=
    (List.perm_insertionSort _ _).subset (mem_tierSlices (Or.inr (Or.inr hpl)))
  simpa using (List.mem_filter.mp hpg).2

/-- C5: for at least 3 records, the tiers of `assign_tiers` are the
projections of the annotated pair lists, and within one author's units every
easy pair's difficulty is at most every medium pair's difficulty of the same
author, and every medium pair's at most every hard pair's (ties resolved by
the stable sort leave equal difficulties on both sides of a cut, which the
`≤` accommodates). -/
theorem claim_C5 (records : List UnitRecord) (h3 : 3 ≤ records.length)
    (p q : UnitRecord × ℝ) :
    ((assign_tiers records).easy = (easyPairs records).map Prod.fst ∧
        (assign_tiers records).medium = (mediumPairs records).map Prod.fst ∧
        (assign_tiers records).hard = (hardPairs records).map Prod.fst) ∧
      (p ∈ easyPairs records → q ∈ mediumPairs records →
        p.1.author = q.1.author → p.2 ≤ q.2) ∧
      (p ∈ mediumPairs records → q ∈ hardPairs records →
        p.1.author = q.1.author → p.2 ≤ q.2) := by
  refine ⟨?_, ?_, ?_⟩
  · have hne : records ≠ [] := by
      intro h
      rw [h] at h3
      exact absurd h3 (by decide)
    rw [assign_tiers, if_neg hne, if_neg (by omega)]
    exact ⟨rfl, rfl, rfl⟩
  · intro hp hq hauth
    obtain ⟨k, hp1, hpk⟩ := easyPairs_mem hp
    obtain ⟨k2, hq1, hqk⟩ := mediumPairs_mem hq
    have hkk : k = k2 := by rw [← hpk, ← hqk, hauth]
    subst hkk
    exact (tierSlices_order (authorRows records k) p q).1 hp1 hq1
  · intro hp hq hauth
    obtain ⟨k, hp1, hpk⟩ := mediumPairs_mem hp
    obtain ⟨k2, hq1, hqk⟩ := hardPairs_mem hq
    have hkk : k = k2 := by rw [← hpk, ← hqk, hauth]
    subst hkk
    exact (tierSlices_order (authorRows records k) p q).2 hp1 hq1

theorem rankedPairs_trio123 :
    rankedPairs trio123 = [(r1, -(3 / 5)), (r2, 0), (r3, 3 / 5)] := by
  rw [rankedPairs, difficulties_trio123]
  rfl

theorem authorGroups_trio123 :
    authorGroups trio123 = [[(r1, -(3 / 5)), (r2, 0), (r3, 3 / 5)]] := by
  have h1 : (rankedPairs trio123).map (fun p => p.1.author) =
      ["x".data, "x".data, "x".data] := by
    rw [rankedPairs_trio123]
    rfl
  rw [authorGroups, h1]
  have h2 : firstKeys ["x".data, "x".data, "x".data] = ["x".data] := by decide
  rw [h2, List.map_cons, List.map_nil, authorRows, rankedPairs_trio123]
  rfl

theorem sortRows_trio123 :
    sortRows [(r1, -(3 / 5)), (r2, (0:ℝ)), (r3, 3 / 5)] =
      [(r1, -(3 / 5)), (r2, 0), (r3, 3 / 5)] := by
  norm_num [sortRows, List.insertionSort, List.orderedInsert]

theorem tierSlices_trio123 :
    tierSlices [(r1, -(3 / 5)), (r2, (0:ℝ)), (r3, 3 / 5)] =
      ([(r1, -(3 / 5))], [(r2, 0)], [(r3, 3 / 5)]) := by
  simp only [tierSlices, sortRows_trio123]
  norm_num

theorem easyPairs_trio123 : easyPairs trio123 = [(r1, -(3 / 5))] := by
  rw [easyPairs, authorGroups_trio123, List.map_cons, List.map_nil, tierSlices_trio123]
  rfl

theorem mediumPairs_trio123 : mediumPairs trio123 = [(r2, 0)] := by
  rw [mediumPairs, authorGroups_trio123, List.map_cons, List.map_nil, tierSlices_trio123]
  rfl

theorem hardPairs_trio123 : hardPairs trio123 = [(r3, 3 / 5)] := by
  rw [hardPairs, authorGroups_trio123, List.map_cons, List.map_nil, tierSlices_trio123]
  rfl

theorem claim_C5_witness :
    3 ≤ trio123.length ∧
      ((r1, -(3 / 5 : ℝ)) ∈ easyPairs trio123 ∧ (r2, (0:ℝ)) ∈ mediumPairs trio123 ∧
        (r3, (3 / 5 : ℝ)) ∈ hardPairs trio123) ∧
      (r1, -(3 / 5 : ℝ)).1.author = (r2, (0:ℝ)).1.author ∧
      ((assign_tiers trio123).easy = (easyPairs trio123).map Prod.fst ∧
        (assign_tiers trio123).medium = (mediumPairs trio123).map Prod.fst ∧
        (assign_tiers trio123).hard = (hardPairs trio123).map Prod.fst) ∧
      (r1, -(3 / 5 : ℝ)).2 ≤ (r2, (0:ℝ)).2 ∧ (r2, (0:ℝ)).2 ≤ (r3, (3 / 5 : ℝ)).2 := by
  have hpe : (r1, -(3 / 5 : ℝ)) ∈ easyPairs trio123 := by
    rw [easyPairs_trio123]
    exact List.mem_singleton_self _
  have hpm : (r2, (0:ℝ)) ∈ mediumPairs trio123 := by
    rw [mediumPairs_trio123]
    exact List.mem_singleton_self _
  have hph : (r3, (3 / 5 : ℝ)) ∈ hardPairs trio123 := by
    rw [hardPairs_trio123]
    exact List.mem_singleton_self _
  refine ⟨by decide, ⟨hpe, hpm, hph⟩, rfl, ?_, ?_, ?_⟩
  · exact (claim_C5 trio123 (by decide) (r1, -(3 / 5 : ℝ)) (r2, (0:ℝ))).1
  · exact (claim_C5 trio123 (by decide) (r1, -(3 / 5 : ℝ)) (r2, (0:ℝ))).2.1 hpe hpm rfl
  · exact (claim_C5 trio123 (by decide) (r2, (0:ℝ)) (r3, (3 / 5 : ℝ))).2.2 hpm hph rfl

/-! ### C3: order of the input list versus tier contents -/

/-- The per-value z-score function hidden inside `z_score`: it depends on
the value and on the statistics of the list. -/
noncomputable def zVal (l : List ℝ) (v : ℝ) : ℝ :=
  if l = [] then 0
  else
    let mean := l.sum / l.length
    let stdev := if 1 < l.length then
        Real.sqrt ((l.map (fun x => (x - mean) ^ 2)).sum / ((l.length : ℝ) - 1))
      else 0
    if stdev = 0 then 0 else (v - mean) / stdev

theorem z_score_eq_map (l : List ℝ) : z_score l = l.map (zVal l) := by
  by_cases hne : l = []
  · rw [hne]
    rfl
  · simp only [z_score, zVal, if_neg hne]
    by_cases h0 : (if 1 < l.length then
        Real.sqrt ((l.map (fun x => (x - l.sum / (l.length : ℝ)) ^ 2)).sum /
          ((l.length : ℝ) - 1))
      else 0) = 0
    · rw [if_pos h0]
      refine List.map_congr_left ?_
      intro x _
      simp only [zVal, if_neg hne]
      rw [if_pos h0]
    · rw [if_neg h0]
      refine List.map_congr_left ?_
      intro x _
      simp only [zVal, if_neg hne]
      rw [if_neg h0]

/-- `zVal` only depends on the multiset of the list. -/
theorem zVal_perm {l1 l2 : List ℝ} (h : l1.Perm l2) : zVal l1 = zVal l2 := by
  funext v
  by_cases hne : l1 = []
  · have he2 : l2 = [] := by
      have := h.length_eq
      rw [hne] at this
      exact List.length_eq_zero.mp this.symm
    rw [hne, he2]
  · have hne2 : l2 ≠ [] := by
      intro h2
      have := h.length_eq
      rw [h2] at this
      exact hne (List.length_eq_zero.mp this)
    have hdev1 : (l1.map (fun x => (x - l2.sum / (l2.length : ℝ)) ^ 2)).sum =
        (l2.map (fun x => (x - l2.sum / (l2.length : ℝ)) ^ 2)).sum :=
      (h.map _).sum_eq
    simp only [zVal, if_neg hne, if_neg hne2, h.length_eq, h.sum_eq, hdev1]

/-- The composite difficulty as a function of the record and the corpus
statistics. -/
noncomputable def dFun (records : List UnitRecord) (r : UnitRecord) : ℝ :=
  6 / 10 * zVal (fkVals records) (r.fk_grade : ℝ) +
    3 / 10 * zVal (polyVals records) (r.pct_poly : ℝ) -
    1 / 10 * zVal (burdenVals records) (r.factual_burden : ℝ)

theorem difficulties_eq_map (records : List UnitRecord) :
    difficulties records = records.map (dFun records) := by
  apply List.ext_getElem
  · rw [difficulties_length, List.length_map]
  · intro i h1 h2
    have hi : i < records.length := by rwa [List.length_map] at h2
    simp only [difficulties, List.getElem_map, List.getElem_range]
    rw [z_score_eq_map, z_score_eq_map, z_score_eq_map]
    rw [List.getD_eq_getElem _ _ (by simpa [fkVals] using hi),
      List.getD_eq_getElem _ _ (by simpa [polyVals] using hi),
      List.getD_eq_getElem _ _ (by simpa [burdenVals] using hi)]
    simp only [fkVals, polyVals, burdenVals, dFun, List.getElem_map]

theorem zip_map_self {α β : Type} (l : List α) (f : α → β) :
    l.zip (l.map f) = l.map (fun a => (a, f a)) := by
  induction l with
  | nil => rfl
  | cons a t ih => simp [List.zip_cons_cons, ih]

theorem rankedPairs_eq_map (records : List UnitRecord) :
    rankedPairs records = records.map (fun r => (r, dFun records r)) := by
  rw [rankedPairs, difficulties_eq_map]
  exact zip_map_self records (dFun records)

theorem dFun_perm {l1 l2 : List UnitRecord} (h : l1.Perm l2) : dFun l1 = dFun l2 := by
  have hf : (fkVals l1).Perm (fkVals l2) := h.map _
  have hp : (polyVals l1).Perm (polyVals l2) := h.map _
  have hb : (burdenVals l1).Perm (burdenVals l2) := h.map _
  funext r
  rw [dFun, dFun, zVal_perm hf, zVal_perm hp, zVal_perm hb]

theorem rankedPairs_authors (l : List UnitRecord) :
    (rankedPairs l).map (fun p => p.1.author) = l.map (fun r => r.author) := by
  rw [rankedPairs_eq_map, List.map_map]
  rfl

/-- Two permuted groups with duplicate-free difficulties sort to the same
list. -/
theorem sortRows_eq_of_perm {g1 g2 : List (UnitRecord × ℝ)} (h : g1.Perm g2)
    (hnd : (g1.map (fun p => p.2)).Nodup) : sortRows g1 = sortRows g2 := by
  have hp : (sortRows g1).Perm (sortRows g2) :=
    (List.perm_insertionSort _ g1).trans (h.trans (List.perm_insertionSort _ g2).symm)
  have hnd1 : ((sortRows g1).map (fun p => p.2)).Nodup :=
    (((List.perm_insertionSort _ g1).map _).nodup_iff).mpr hnd
  have hnd2 : ((sortRows g2).map (fun p => p.2)).Nodup :=
    ((hp.symm.map _).nodup_iff).mpr hnd1
  have hlt1 : List.Sorted (fun p q : UnitRecord × ℝ => p.2 < q.2) (sortRows g1) :=
    ((sortRows_sorted g1).and (List.pairwise_map.mp hnd1)).imp
      (fun hab => lt_of_le_of_ne hab.1 hab.2)
  have hlt2 : List.Sorted (fun p q : UnitRecord × ℝ => p.2 < q.2) (sortRows g2) :=
    ((sortRows_sorted g2).and (List.pairwise_map.mp hnd2)).imp
      (fun hab => lt_of_le_of_ne hab.1 hab.2)
  exact List.eq_of_perm_of_sorted hp hlt1 hlt2

theorem tierSlices_congr {g1 g2 : List (UnitRecord × ℝ)}
    (h : sortRows g1 = sortRows g2) : tierSlices g1 = tierSlices g2 := by
  rw [tierSlices, tierSlices, h]

/-- Shuffling the records permutes each flattened selection of tier slices,
provided every author's difficulties are duplicate-free. -/
theorem groupPairs_perm (l1 l2 : List UnitRecord) (hperm : l1.Perm l2)
    (hd : ∀ k ∈ l1.map (fun r => r.author),
      ((authorRows l1 k).map (fun p => p.2)).Nodup)
    (f : List (UnitRecord × ℝ) × List (UnitRecord × ℝ) × List (UnitRecord × ℝ) →
      List (UnitRecord × ℝ)) :
    (((authorGroups l1).map (fun g => f (tierSlices g))).flatten).Perm
      (((authorGroups l2).map (fun g => f (tierSlices g))).flatten) := by
  have hpairs : (rankedPairs l1).Perm (rankedPairs l2) := by
    rw [rankedPairs_eq_map, rankedPairs_eq_map]
    simp only [dFun_perm hperm]
    exact hperm.map _
  have hgroup : ∀ k, (authorRows l1 k).Perm (authorRows l2 k) :=
    fun k => hpairs.filter _
  have hkeys : (firstKeys (l1.map (fun r => r.author))).Perm
      (firstKeys (l2.map (fun r => r.author))) := by
    refine (List.perm_ext_iff_of_nodup (nodup_firstKeys _) (nodup_firstKeys _)).mpr ?_
    intro a
    rw [mem_firstKeys, mem_firstKeys]
    exact (hperm.map _).mem_iff
  have hsorteq : ∀ k ∈ l1.map (fun r => r.author),
      tierSlices (authorRows l1 k) = tierSlices (authorRows l2 k) :=
    fun k hk => tierSlices_congr (sortRows_eq_of_perm (hgroup k) (hd k hk))
  rw [authorGroups, authorGroups, rankedPairs_authors, rankedPairs_authors,
    List.map_map, List.map_map]
  have hmc : (firstKeys (l1.map (fun r => r.author))).map
      ((fun g => f (tierSlices g)) ∘ fun k => authorRows l1 k) =
      (firstKeys (l1.map (fun r => r.author))).map
        ((fun g => f (tierSlices g)) ∘ fun k => authorRows l2 k) := by
    apply List.map_congr_left
    intro k hk
    simp only [Function.comp_apply]
    rw [hsorteq k (mem_firstKeys.mp hk)]
  rw [hmc]
  exact (hkeys.map _).flatten

/-- C3 (amended/corrected): the shuffle is modelled by its effect — a
permutation of the record list before tiering.  When every author's
difficulty values are pairwise distinct (deterministic sort order),
permuting the input permutes each tier, so the tier sets are unchanged.
Without that hypothesis the claim is false: with tied difficulties the
stable sort keeps the input order, and the cut positions select different
records (see the recorded counterexample). -/
theorem claim_C3 (l1 l2 : List UnitRecord) (hperm : l1.Perm l2)
    (hd : ∀ k ∈ l1.map (fun r => r.author),
      ((authorRows l1 k).map (fun p => p.2)).Nodup) :
    ((assign_tiers l1).easy).Perm ((assign_tiers l2).easy) ∧
      ((assign_tiers l1).medium).Perm ((assign_tiers l2).medium) ∧
      ((assign_tiers l1).hard).Perm ((assign_tiers l2).hard) := by
  by_cases he : l1 = []
  · have he2 : l2 = [] := by
      have := hperm.length_eq
      rw [he] at this
      exact List.length_eq_zero.mp this.symm
    rw [he, he2]
    exact ⟨List.Perm.refl _, List.Perm.refl _, List.Perm.refl _⟩
  · have he2 : l2 ≠ [] := by
      intro h2
      have := hperm.length_eq
      rw [h2] at this
      exact he (List.length_eq_zero.mp this)
    by_cases hl : l1.length < 3
    · have hl2 : l2.length < 3 := by rw [← hperm.length_eq]; exact hl
      rw [assign_tiers, if_neg he, if_pos hl, assign_tiers, if_neg he2, if_pos hl2]
      exact ⟨List.Perm.refl _, List.Perm.refl _, hperm⟩
    · have hl2 : ¬ l2.length < 3 := by rw [← hperm.length_eq]; exact hl
      rw [assign_tiers, if_neg he, if_neg hl, assign_tiers, if_neg he2, if_neg hl2]
      dsimp only
      refine ⟨List.Perm.map _ ?_, List.Perm.map _ ?_, List.Perm.map _ ?_⟩
      · exact groupPairs_perm l1 l2 hperm hd (fun t => t.1)
      · exact groupPairs_perm l1 l2 hperm hd (fun t => t.2.1)
      · exact groupPairs_perm l1 l2 hperm hd (fun t => t.2.2)

def trioABC : List UnitRecord := [rA, rB, rC]
def trioBAC : List UnitRecord := [rB, rA, rC]
def trio213 : List UnitRecord := [r2, r1, r3]

theorem difficulties_trioABC : difficulties trioABC = [0, 0, 0] := by
  rw [difficulties_all_eq 0 0 0]
  · rfl
  all_goals intro r hr
  all_goals rcases List.mem_cons.mp hr with h | h
  all_goals first
    | (rw [h]; rfl)
    | (rcases List.mem_cons.mp h with h2 | h2
       · rw [h2]; rfl
       · rw [List.mem_singleton.mp h2]; rfl)

theorem difficulties_trioBAC : difficulties trioBAC = [0, 0, 0] := by
  rw [difficulties_all_eq 0 0 0]
  · rfl
  all_goals intro r hr
  all_goals rcases List.mem_cons.mp hr with h | h
  all_goals first
    | (rw [h]; rfl)
    | (rcases List.mem_cons.mp h with h2 | h2
       · rw [h2]; rfl
       · rw [List.mem_singleton.mp h2]; rfl)

theorem assign_tiers_trioABC : assign_tiers trioABC = ⟨[rA], [rB], [rC]⟩ := by
  have hrk : rankedPairs trioABC = [(rA, 0), (rB, 0), (rC, 0)] := by
    rw [rankedPairs, difficulties_trioABC]
    rfl
  have h1 : (rankedPairs trioABC).map (fun p => p.1.author) =
      ["x".data, "x".data, "x".data] := by
    rw [hrk]
    rfl
  have hgrp : authorGroups trioABC = [[(rA, 0), (rB, 0), (rC, 0)]] := by
    rw [authorGroups, h1]
    have h2 : firstKeys ["x".data, "x".data, "x".data] = ["x".data] := by decide
    rw [h2, List.map_cons, List.map_nil, authorRows, hrk]
    rfl
  have hsort : sortRows [(rA, (0:ℝ)), (rB, 0), (rC, 0)] = [(rA, 0), (rB, 0), (rC, 0)] := by
    simp [sortRows, List.insertionSort, List.orderedInsert]
  have hts : tierSlices [(rA, (0:ℝ)), (rB, 0), (rC, 0)] =
      ([(rA, 0)], [(rB, 0)], [(rC, 0)]) := by
    simp only [tierSlices, hsort]
    norm_num
  rw [assign_tiers, if_neg (by simp [trioABC]), if_neg (by norm_num [trioABC])]
  have he : easyPairs trioABC = [(rA, 0)] := by
    rw [easyPairs, hgrp, List.map_cons, List.map_nil, hts]
    rfl
  have hm : mediumPairs trioABC = [(rB, 0)] := by
    rw [mediumPairs, hgrp, List.map_cons, List.map_nil, hts]
    rfl
  have hh : hardPairs trioABC = [(rC, 0)] := by
    rw [hardPairs, hgrp, List.map_cons, List.map_nil, hts]
    rfl
  rw [he, hm, hh]
  rfl

theorem assign_tiers_trioBAC : assign_tiers trioBAC = ⟨[rB], [rA], [rC]⟩ := by
  have hrk : rankedPairs trioBAC = [(rB, 0), (rA, 0), (rC, 0)] := by
    rw [rankedPairs, difficulties_trioBAC]
    rfl
  have h1 : (rankedPairs trioBAC).map (fun p => p.1.author) =
      ["x".data, "x".data, "x".data] := by
    rw [hrk]
    rfl
  have hgrp : authorGroups trioBAC = [[(rB, 0), (rA, 0), (rC, 0)]] := by
    rw [authorGroups, h1]
    have h2 : firstKeys ["x".data, "x".data, "x".data] = ["x".data] := by decide
    rw [h2, List.map_cons, List.map_nil, authorRows, hrk]
    rfl
  have hsort : sortRows [(rB, (0:ℝ)), (rA, 0), (rC, 0)] = [(rB, 0), (rA, 0), (rC, 0)] := by
    simp [sortRows, List.insertionSort, List.orderedInsert]
  have hts : tierSlices [(rB, (0:ℝ)), (rA, 0), (rC, 0)] =
      ([(rB, 0)], [(rA, 0)], [(rC, 0)]) := by
    simp only [tierSlices, hsort]
    norm_num
  rw [assign_tiers, if_neg (by simp [trioBAC]), if_neg (by norm_num [trioBAC])]
  have he : easyPairs trioBAC = [(rB, 0)] := by
    rw [easyPairs, hgrp, List.map_cons, List.map_nil, hts]
    rfl
  have hm : mediumPairs trioBAC = [(rA, 0)] := by
    rw [mediumPairs, hgrp, List.map_cons, List.map_nil, hts]
    rfl
  have hh : hardPairs trioBAC = [(rC, 0)] := by
    rw [hardPairs, hgrp, List.map_cons, List.map_nil, hts]
    rfl
  rw [he, hm, hh]
  rfl

/-- C3 counterexample: three same-author records with identical scores (so
all difficulties tie).  Reordering the first two — a permutation a shuffle
seed can produce — changes which record lands in the easy tier, so the easy
tier SET depends on the shuffle. -/
theorem claim_C3_counterexample :
    trioABC.Perm trioBAC ∧
      rA ∈ (assign_tiers trioABC).easy ∧ rA ∉ (assign_tiers trioBAC).easy := by
  refine ⟨List.Perm.swap rB rA [rC], ?_, ?_⟩
  · rw [assign_tiers_trioABC]
    exact List.mem_singleton_self rA
  · rw [assign_tiers_trioBAC]
    intro h
    exact absurd (congrArg UnitRecord.title (List.mem_singleton.mp h)) (by decide)

theorem authorRows_trio123 :
    authorRows trio123 "x".data = [(r1, -(3 / 5)), (r2, 0), (r3, 3 / 5)] := by
  rw [authorRows, rankedPairs_trio123]
  rfl

theorem claim_C3_witness :
    ((assign_tiers trio123).easy).Perm ((assign_tiers trio213).easy) ∧
      ((assign_tiers trio123).medium).Perm ((assign_tiers trio213).medium) ∧
      ((assign_tiers trio123).hard).Perm ((assign_tiers trio213).hard) := by
  refine claim_C3 trio123 trio213 (List.Perm.swap r2 r1 [r3]) ?_
  intro k hk
  have hx : k = "x".data := by
    rcases List.mem_cons.mp hk with h | h
    · exact h.symm ▸ rfl
    · rcases List.mem_cons.mp h with h2 | h2
      · exact h2.symm ▸ rfl
      · exact (List.mem_singleton.mp h2).symm ▸ rfl
  rw [hx, authorRows_trio123]
  norm_num [List.nodup_cons]

/-! ### C1: `to_paragraphs`, `split_sections` and `build_records` -/

/-- `text.split("\n")`: split at every newline, keeping empty parts. -/
def splitNLGo (acc : List Char) : List Char → List (List Char)
  | [] => [acc.reverse]
  | c :: rest =>
    if c = '\n' then acc.reverse :: splitNLGo [] rest else splitNLGo (c :: acc) rest

def splitNL (cs : List Char) : List (List Char) :=
  splitNLGo [] cs

/-- The paragraph accumulator of `to_paragraphs`: blank (after stripping)
lines flush the current run of stripped lines as one space-joined
paragraph. -/
def to_paragraphs_go (current : List (List Char)) :
    List (List Char) → List (List Char)
  | [] => if current = [] then [] else [stripChars (joinSep [' '] current)]
  | line :: rest =>
    if stripChars line = [] then
      if current = [] then to_paragraphs_go [] rest
      else stripChars (joinSep [' '] current) :: to_paragraphs_go [] rest
    else to_paragraphs_go (current ++ [stripChars line]) rest

/-- `to_paragraphs` from the source (the final comprehension drops empty
paragraphs). -/
def to_paragraphs (text : List Char) : List (List Char) :=
  (to_paragraphs_go [] (splitNL text)).filter (fun p => !p.isEmpty)

/-- `p_trimmed.endswith((".", "!", "?"))`. -/
def endsWithPunct (p : List Char) : Bool :=
  match p.getLast? with
  | some c => c == '.' || c == '!' || c == '?'
  | none => false

/-- `p.lower().startswith(("chapter ", "book ", "part ", "section "))`. -/
def headingStart (p : List Char) : Bool :=
  let lp := p.map Char.toLower
  List.isPrefixOf "chapter ".data lp || List.isPrefixOf "book ".data lp ||
    List.isPrefixOf "part ".data lp || List.isPrefixOf "section ".data lp

/-- A character kept by `re.sub(r"[^\w'’-]", "", token)`. -/
def singleTokenChar (c : Char) : Bool :=
  isWordAl c || c == '\'' || c == '’' || c == '-'

/-- `re.fullmatch(r"[A-Z][a-z]{4,}", token)`. -/
def titleCaseToken (t : List Char) : Bool :=
  match t with
  | [] => false
  | c :: rest => c.isUpper && decide (4 ≤ rest.length) && rest.all (fun d => d.isLower)

/-- `looks_like_heading` from the source.  The title ratio
`title_like / max(1, len(words)) >= 0.8` is compared exactly by
cross-multiplication (exact for the denominators `≤ 12` reachable here). -/
def looks_like_heading (paragraph : List Char) : Bool :=
  let p := stripChars paragraph
  let p_trimmed := stripWith isQuoteBracket p
  if p = [] then false
  else if decide (100 < p.length) then false
  else if endsWithPunct p_trimmed then false
  else
    let words := pySplit p
    if decide (12 < words.length) then false
    else if headingStart p then true
    else if words.length = 1 then
      titleCaseToken ((words.headD []).filter singleTokenChar)
    else
      let title_like := (words.filter (fun w => titleWord w || upperWord w)).length
      decide (4 * max 1 words.length ≤ 5 * title_like)

/-- `is_excluded_section_name`: strip, uppercase, collapse internal
whitespace runs to single spaces, and compare with the excluded names. -/
def is_excluded_section_name (name : List Char) : Bool :=
  let cleaned := joinSep [' '] (pySplit ((stripChars name).map Char.toUpper))
  cleaned == "INDEX".data || cleaned == "THE END".data ||
    cleaned == "CONTENTS".data || cleaned == "TABLE OF CONTENTS".data

/-- The per-heading section builder: each heading's body runs to the next
heading index (or the end of the paragraph list) and is kept when
non-empty, long enough, and not excluded by name. -/
def sectionsFrom (paragraphs : List (List Char)) (minSec : Nat) :
    List Nat → List (List Char × List (List Char))
  | [] => []
  | i :: rest =>
    let heading := paragraphs.getD i []
    let bodyEnd := match rest with
      | j :: _ => j
      | [] => paragraphs.length
    let body := (paragraphs.take bodyEnd).drop (i + 1)
    let keep :=
      if body = [] then []
      else if decide (count_words (joinSep nl2 body) < minSec) then []
      else if is_excluded_section_name heading then []
      else [(heading, body)]
    keep ++ sectionsFrom paragraphs minSec rest

/-- `split_sections` from the source; the `ValueError` raised on an
unsupported split mode is modelled by `Except.error`. -/
def split_sections (paragraphs : List (List Char)) (split_mode : List Char)
    (minSec : Nat) : Except (List Char) (List (List Char × List (List Char))) :=
  if split_mode ≠ "headings".data ∧ split_mode ≠ "none".data then
    Except.error ("Unsupported split mode: ".data ++ split_mode)
  else if split_mode = "none".data then Except.ok [("Full text".data, paragraphs)]
  else
    let heading_indices := (List.range paragraphs.length).filter
      (fun i => looks_like_heading (paragraphs.getD i []))
    if heading_indices = [] then Except.ok [("Full text".data, paragraphs)]
    else
      let first := heading_indices.headD 0
      let lead :=
        if 0 < first then
          if decide (minSec ≤ count_words (joinSep nl2 (paragraphs.take first))) then
            [("Introduction".data, paragraphs.take first)]
          else []
        else []
      let sections := lead ++ sectionsFrom paragraphs minSec heading_indices
      if sections = [] then Except.ok [("Full text".data, paragraphs)]
      else Except.ok sections

/-- Round half to even (the behaviour of Python's `round`; binary float
representation error is idealized away, the rationals being exact). -/
def roundHalfEven (q : ℚ) : ℤ :=
  let f := ⌊q⌋
  let r := q - f
  if r < 1 / 2 then f
  else if 1 / 2 < r then f + 1
  else if f % 2 = 0 then f else f + 1

/-- `round(x, d)`. -/
def roundTo (d : Nat) (q : ℚ) : ℚ :=
  (roundHalfEven (q * 10 ^ d) : ℚ) / 10 ^ d

/-- A work of the manifest together with the raw text its source loader
returns (`load_work_text` performs network or file IO, which is outside
this embedding: `raw_text` stands for its result). -/
structure WorkInput where
  work_id : List Char
  author : List Char
  title : List Char
  domain : List Char
  unit_type : List Char
  tags : List (List Char)
  split_mode : List Char
  raw_text : List Char
deriving DecidableEq

/-- The records built from the chunk stream of one work: chunks with fewer
than `min_unit_words` words are skipped; the others become records and
advance the running unit index used in the title. -/
def recordsOfChunks (w : WorkInput) (minUnit : Nat) :
    Nat → List (List Char × List Char) → List UnitRecord
  | _, [] => []
  | idx, (sec_name, chunk_text) :: rest =>
    let wc := count_words chunk_text
    if wc < minUnit then recordsOfChunks w minUnit idx rest
    else
      { title := w.author ++ " - ".data ++ w.title ++ " - ".data ++ sec_name ++
          " (".data ++ (Nat.repr idx).data ++ ")".data,
        text := chunk_text,
        domain := w.domain,
        fk_grade := roundTo 1 (flesch_kincaid_grade chunk_text),
        words := wc,
        sentences := sentence_count chunk_text,
        author := w.author,
        work_title := w.title,
        work_id := w.work_id,
        unit_type := w.unit_type,
        tags := w.tags,
        sectionName := sec_name,
        pct_poly := roundTo 4 (pct_polysyllabic chunk_text),
        factual_burden := roundTo 4 (factual_burden_score chunk_text) } ::
        recordsOfChunks w minUnit (idx + 1) rest

/-- `build_records`, on the pure pipeline after text loading: per work,
normalize, make paragraphs (a work with none is skipped before
`split_sections` can raise), split into sections, chunk each section, and
keep the chunks of at least `min_unit_words` words.  The optional seeded
shuffle at the end permutes the returned list and is modelled at the
`assign_tiers` interface, so this list is the pre-shuffle record stream. -/
def build_records (target maxW minW minSec minUnit : Nat) :
    List WorkInput → Except (List Char) (List UnitRecord)
  | [] => Except.ok []
  | w :: ws =>
    let paragraphs := to_paragraphs (normalize_text w.raw_text)
    if paragraphs = [] then build_records target maxW minW minSec minUnit ws
    else
      match split_sections paragraphs w.split_mode minSec with
      | Except.error e => Except.error e
      | Except.ok sections =>
        match build_records target maxW minW minSec minUnit ws with
        | Except.error e => Except.error e
        | Except.ok rest =>
          Except.ok (recordsOfChunks w minUnit 1
            ((sections.map (fun s => chunk_section s.1 s.2 target maxW minW)).flatten) ++
            rest)

/-- Every paragraph of a section produced by `sectionsFrom` is one of the
input paragraphs. -/
theorem sectionsFrom_sub (paragraphs : List (List Char)) (minSec : Nat) :
    ∀ (idxs : List Nat) (s : List Char × List (List Char)),
      s ∈ sectionsFrom paragraphs minSec idxs → ∀ p ∈ s.2, p ∈ paragraphs := by
  intro idxs
  induction idxs with
  | nil =>
    intro s hs
    exact absurd hs (List.not_mem_nil s)
  | cons i rest ih =>
    intro s hs p hp
    simp only [sectionsFrom] at hs
    rcases List.mem_append.mp hs with h | h
    · split_ifs at h with h1 h2 h3
      · exact absurd h (List.not_mem_nil s)
      · exact absurd h (List.not_mem_nil s)
      · exact absurd h (List.not_mem_nil s)
      · rw [List.mem_singleton.mp h] at hp
        exact List.take_subset _ _ (List.drop_subset _ _ hp)
    · exact ih s h p hp

/-- Every paragraph of a section produced by `split_sections` is one of the
input paragraphs. -/
theorem split_sections_sub {paragraphs : List (List Char)} {mode : List Char}
    {minSec : Nat} {sections : List (List Char × List (List Char))}
    (h : split_sections paragraphs mode minSec = Except.ok sections) :
    ∀ s ∈ sections, ∀ p ∈ s.2, p ∈ paragraphs := by
  intro s hs p hp
  simp only [split_sections] at h
  split_ifs at h with h1 h2 h3 h4 h5 h6
  all_goals first
    | (rw [← Except.ok.inj h] at hs
       rw [List.mem_singleton.mp hs] at hp
       exact hp)
    | (rw [← Except.ok.inj h] at hs
       rcases List.mem_append.mp hs with hl | hr2
       · first
         | exact absurd hl (List.not_mem_nil s)
         | (rw [List.mem_singleton.mp hl] at hp
            exact List.take_subset _ _ hp)
       · exact sectionsFrom_sub paragraphs minSec _ s hr2 p hp)
    | exact absurd h (by simp)

/-- Records built from a chunk stream have at least `min_unit_words` words
and take their text from one of the chunks. -/
theorem recordsOfChunks_mem {w : WorkInput} {minUnit : Nat} :
    ∀ (chunks : List (List Char × List Char)) (idx : Nat) (r : UnitRecord),
      r ∈ recordsOfChunks w minUnit idx chunks →
        minUnit ≤ count_words r.text ∧ ∃ c ∈ chunks, r.text = c.2 := by
  intro chunks
  induction chunks with
  | nil =>
    intro idx r hr
    exact absurd hr (List.not_mem_nil r)
  | cons c rest ih =>
    intro idx r hr
    obtain ⟨sec_name, chunk_text⟩ := c
    simp only [recordsOfChunks] at hr
    split_ifs at hr with h1
    · obtain ⟨hmin, c2, hc2, htext⟩ := ih idx r hr
      exact ⟨hmin, c2, List.mem_cons_of_mem _ hc2, htext⟩
    · rcases List.mem_cons.mp hr with h | h
      · rw [h]
        refine ⟨?_, (sec_name, chunk_text), List.mem_cons_self _ _, rfl⟩
        show minUnit ≤ count_words chunk_text
        omega
      · obtain ⟨hmin, c2, hc2, htext⟩ := ih (idx + 1) r h
        exact ⟨hmin, c2, List.mem_cons_of_mem _ hc2, htext⟩

/-- C1 (amended): every record emitted by `build_records` has at least
`min_unit_words` words (the filter guarantees the lower bound
unconditionally).  The upper bound `count_words ≤ max_words` holds under
the proviso that no single sentence of any paragraph of any work exceeds
`max_words` — without it a one-sentence paragraph longer than `max_words`
survives intact (see the recorded counterexample).  Likewise every piece
produced by `split_oversized_paragraph` obeys the cap exactly when the
paragraph has no over-long sentence. -/
theorem claim_C1 (works : List WorkInput) (target maxW minW minSec minUnit : Nat)
    (rp : List Char) (recs : List UnitRecord) (r : UnitRecord)
    (hrec : build_records target maxW minW minSec minUnit works = Except.ok recs)
    (hr : r ∈ recs) :
    minUnit ≤ count_words r.text ∧
      ((∀ w ∈ works, ∀ p ∈ to_paragraphs (normalize_text w.raw_text),
          ∀ s ∈ sentencesOf p, count_words s ≤ maxW) →
        count_words r.text ≤ maxW) ∧
      ((∀ s ∈ sentencesOf rp, count_words s ≤ maxW) →
        ∀ piece ∈ split_oversized_paragraph target maxW rp,
          count_words piece ≤ maxW) := by
  refine ?_
  induction works generalizing recs with
  | nil =>
    rw [build_records] at hrec
    rw [← Except.ok.inj hrec] at hr
    exact absurd hr (List.not_mem_nil r)
  | cons w ws ih =>
    simp only [build_records] at hrec
    by_cases hp : to_paragraphs (normalize_text w.raw_text) = []
    · rw [if_pos hp] at hrec
      obtain ⟨ha, hb, hc⟩ := ih recs hrec hr
      exact ⟨ha, fun hsent => hb (fun w2 hw2 => hsent w2 (List.mem_cons_of_mem w hw2)),
        hc⟩
    · rw [if_neg hp] at hrec
      cases hsec : split_sections (to_paragraphs (normalize_text w.raw_text))
          w.split_mode minSec with
      | error e =>
        rw [hsec] at hrec
        exact absurd hrec (by simp)
      | ok sections =>
        rw [hsec] at hrec
        cases hrest : build_records target maxW minW minSec minUnit ws with
        | error e =>
          rw [hrest] at hrec
          exact absurd hrec (by simp)
        | ok rest =>
          rw [hrest] at hrec
          rw [← Except.ok.inj hrec] at hr
          refine ?_
          rcases List.mem_append.mp hr with hmem | hmem
          · obtain ⟨hmin, c, hc, htext⟩ := recordsOfChunks_mem _ 1 r hmem
            refine ⟨hmin, ?_, split_oversized_paragraph_le target maxW rp⟩
            intro hsent
            obtain ⟨l, hl, hcl⟩ := List.mem_flatten.mp hc
            obtain ⟨sct, hsct, rfl⟩ := List.mem_map.mp hl
            have hbound := chunk_section_le sct.1 sct.2 target maxW minW
              (fun p2 hp2 s2 hs2 => hsent w (List.mem_cons_self w ws) p2
                (split_sections_sub hsec sct hsct p2 hp2) s2 hs2) c hcl
            rw [htext]
            exact hbound
          · obtain ⟨ha, hb, hc⟩ := ih rest hrest hmem
            exact ⟨ha, fun hsent => hb (fun w2 hw2 => hsent w2
              (List.mem_cons_of_mem w hw2)), hc⟩

def c1BadWork : WorkInput :=
  { work_id := "w".data, author := "a".data, title := "t".data, domain := "d".data,
    unit_type := "prose".data, tags := [], split_mode := "none".data,
    raw_text := "a a a".data }

/-- Projection of a `build_records` result used to state decidable facts
without touching the rational score fields. -/
def okProj (f : UnitRecord → Nat) :
    Except (List Char) (List UnitRecord) → Option (List Nat)
  | Except.ok recs => some (recs.map f)
  | Except.error _ => none

/-- C1 counterexample: one work whose only paragraph is the single
three-word sentence `"a a a"`, with `target_words = 1`, `max_words = 2`,
`min_words = 1`, `min_section_words = 0`, `min_unit_words = 1`.
`build_records` emits exactly one record, and its text has 3 words —
strictly more than `max_words = 2` (a sentence longer than the cap can
never be split). -/
theorem claim_C1_counterexample :
    okProj (fun r => r.words) (build_records 1 2 1 0 1 [c1BadWork]) = some [3] ∧
      okProj (fun r => count_words r.text) (build_records 1 2 1 0 1 [c1BadWork]) =
        some [3] ∧
      2 < 3 :=
  ⟨by decide, by decide, by decide⟩

def c1wRecs : List UnitRecord :=
  match build_records 3 3 1 0 1 [c1BadWork] with
  | Except.ok recs => recs
  | Except.error _ => []

def c1wRec : UnitRecord := c1wRecs.headD (mkRec [] [] 0)

theorem claim_C1_witness :
    build_records 3 3 1 0 1 [c1BadWork] = Except.ok c1wRecs ∧
      c1wRec ∈ c1wRecs ∧
      1 ≤ count_words c1wRec.text ∧
      count_words c1wRec.text ≤ 3 ∧
      count_words ("a a a".data) ≤ 3 := by
  have h1 : build_records 3 3 1 0 1 [c1BadWork] = Except.ok c1wRecs := rfl
  have h2 : c1wRec ∈ c1wRecs := List.mem_singleton_self c1wRec
  have h3 := claim_C1 [c1BadWork] 3 3 1 0 1 ("a a a".data) c1wRecs c1wRec h1 h2
  refine ⟨h1, h2, h3.1, h3.2.1 (by decide), ?_⟩
  exact h3.2.2 (by decide) ("a a a".data) (by decide)

end PrepareProse
